import Mathlib

/-!
Verification development for the fuzz-introspector merge-and-correlate core.

The repository code under scrutiny is Python.  We embed it shallowly:

* Python strings are embedded as lists of characters (`PyStr`), and the string
  operations the code uses (`in`, `split`, `strip`, `replace`, `int(...)`)
  are given as structural recursive functions mirroring the Python semantics.
* Python dictionaries used as mutable function records become the structure
  `FunctionRecord`; because the code aliases these dictionaries between the
  per-fuzzer profiles and the merged profile, records live on an explicit
  heap (`Heap`, a list of records) and the profiles hold addresses into it.
  Mutation of a dictionary becomes `heapSet`, and `copy.deepcopy` becomes an
  explicit allocation of fresh addresses at the end of the heap.
* Methods that mutate `self` become functions returning the updated value.
* Python code that can raise becomes `Option`-valued (`none` models the
  exception escaping).

Sources embedded here: post-processing/fuzz_data_loader.py (the loader and
merge engine) and src/fuzz_introspector/datatypes/fuzzer_profile.py (the
newer datatypes variant of the per-fuzzer profile; its embedding carries a
D suffix on the structure name).
-/


/-- Python strings, embedded as lists of characters. -/
abbrev PyStr := List Char

/-- Python substring test `needle in haystack` (for `needle`, `haystack`
strings).  The empty needle is contained in every string. -/
def pyContains : PyStr → PyStr → Bool
  | h, n =>
    if n.isPrefixOf h then true
    else
      match h with
      | [] => false
      | _ :: t => pyContains t n

/-- Characters treated as whitespace by Python `str.strip()` (ASCII range). -/
def isPythonSpace (c : Char) : Bool :=
  c == ' ' || c == Char.ofNat 9 || c == Char.ofNat 10 || c == Char.ofNat 11
    || c == Char.ofNat 12 || c == Char.ofNat 13

/-- Python `str.strip()`: remove leading and trailing whitespace. -/
def pyStrip (s : PyStr) : PyStr :=
  ((s.dropWhile isPythonSpace).reverse.dropWhile isPythonSpace).reverse

/-- Helper for `pySplit`, accumulating the current piece in reverse. -/
def pySplitAux (sep : Char) : List Char → List Char → List PyStr
  | [], acc => [acc.reverse]
  | c :: t, acc =>
    if c == sep then acc.reverse :: pySplitAux sep t []
    else pySplitAux sep t (c :: acc)

/-- Python `str.split(sep)` with a one-character separator: split at every
occurrence, keeping empty pieces (so consecutive separators yield empty
strings, and the empty string splits to one empty piece). -/
def pySplit (sep : Char) (s : PyStr) : List PyStr :=
  pySplitAux sep s []

/-- Helper for `pyReplace`, structurally recursive on a fuel argument that
the wrapper instantiates with the length of the string (the scan consumes at
least one character per step, so the fuel never runs out). -/
def pyReplaceAux (old new : PyStr) : Nat → PyStr → PyStr
  | 0, s => s
  | _ + 1, [] => []
  | fuel + 1, c :: t =>
    if old ≠ [] ∧ old.isPrefixOf (c :: t) then
      new ++ pyReplaceAux old new fuel ((c :: t).drop old.length)
    else
      c :: pyReplaceAux old new fuel t

/-- Python `str.replace(old, new)`: replace every non-overlapping occurrence
of `old`, scanning left to right.  The code only calls this with a nonempty
`old`; for an empty `old` we return the string unchanged. -/
def pyReplace (old new : PyStr) (s : PyStr) : PyStr :=
  pyReplaceAux old new s.length s

/-- All-ASCII-digit parse; `none` on the empty string or any non-digit.
Helper for `pyInt?`. -/
def pyDigits? : PyStr → Option Nat
  | [] => none
  | [c] => if c.isDigit then some (c.toNat - 48) else none
  | c :: t =>
    if c.isDigit then
      (pyDigits? t).map (fun n => (c.toNat - 48) * 10 ^ t.length + n)
    else none

/-- Python `int(s)` for decimal strings: strip whitespace, allow one optional
sign, then require nonempty digits; `none` models the ValueError escaping.
(Underscore digit grouping is not modelled; the call sites parse plain
linenumber digits.) -/
def pyInt? (s : PyStr) : Option Int :=
  match pyStrip s with
  | '+' :: r => (pyDigits? r).map (fun n => (n : Int))
  | '-' :: r => (pyDigits? r).map (fun n => -(n : Int))
  | r => (pyDigits? r).map (fun n => (n : Int))

/-- Number of leading space characters of a line; this is the
`len(line) - len(line.lstrip(' '))` computation of the calltree parser. -/
def leadingSpaces (s : PyStr) : Nat :=
  (s.takeWhile (fun c => c == ' ')).length

/-- One node of the parsed calltree, i.e. the dictionary built per line by
`data_file_read_calltree` in post-processing/fuzz_data_loader.py.  Python
stores the depth as the float `space_count / 2`, which it only ever compares
for equality; the embedding stores the doubled value `depth_x2 = space_count`
as an exact integer (equality of the float halves is equivalent to equality
of the doubled values, and halves of naturals are exact floats). -/
structure CallTreeNode where
  function_name : PyStr
  functionSourceFile : PyStr
  depth_x2 : Int
  linenumber : Int
deriving Repr, DecidableEq

/-- Stable insertion keeping list order for equal keys; helper for
`sortByLinenumber`. -/
def insertByLinenumber (n : CallTreeNode) : List CallTreeNode → List CallTreeNode
  | [] => [n]
  | m :: t =>
    if m.linenumber < n.linenumber then m :: insertByLinenumber n t
    else n :: m :: t

/-- Python `sorted(nodes, key=lambda x: x.linenumber)`: stable ascending sort
by line number (stable insertion sort). -/
def sortByLinenumber : List CallTreeNode → List CallTreeNode
  | [] => []
  | x :: t => insertByLinenumber x (sortByLinenumber t)

/-- The loop state of `data_file_read_calltree`: the flag `read_tree`, the
output list `function_call_depths`, and the temporary per-depth buffer
dictionary (its `depth` and `function_calls` entries). -/
structure CalltreeParseState where
  read_tree : Bool
  function_call_depths : List CallTreeNode
  tmp_depth_x2 : Int
  tmp_function_calls : List CallTreeNode
deriving Repr, DecidableEq

/-- The terminator marker of a calltree section: thirty-six equality signs,
as in post-processing/fuzz_data_loader.py line 81. -/
def calltreeTerminator : PyStr :=
  List.replicate 36 '='

/-- The body of the `for line in flog` loop of `data_file_read_calltree`
(post-processing/fuzz_data_loader.py lines 51 to 84), acting on one line.
`none` models the ValueError from `int(...)` on a malformed line number
escaping the function. -/
def calltreeLineStep (st : CalltreeParseState) (line0 : PyStr) :
    Option CalltreeParseState := do
  let line := pyReplace ['\n'] [] line0
  let st ←
    if st.read_tree && !(pyContains line ("======".toList)) then do
      let stripped_line := pySplit ' ' (pyStrip line)
      let fl_ln ←
        if stripped_line.length == 3 then do
          let fl := stripped_line.getD 1 []
          let ln ← pyInt? (pyReplace ("linenumber=".toList) [] (stripped_line.getD 2 []))
          pure (fl, ln)
        else pure (([] : PyStr), (0 : Int))
      let space_count := leadingSpaces line
      let depth_x2 : Int := (space_count : Int)
      let curr_node : CallTreeNode :=
        { function_name := stripped_line.headD []
          functionSourceFile := fl_ln.1
          depth_x2 := depth_x2
          linenumber := fl_ln.2 }
      let st :=
        if st.tmp_depth_x2 ≠ depth_x2 then
          let st :=
            if st.tmp_depth_x2 ≠ -4 then
              { st with function_call_depths :=
                  st.function_call_depths ++ sortByLinenumber st.tmp_function_calls }
            else st
          { st with tmp_depth_x2 := depth_x2, tmp_function_calls := [] }
        else st
      pure { st with tmp_function_calls := st.tmp_function_calls ++ [curr_node] }
    else pure st
  let st := if pyContains line calltreeTerminator then { st with read_tree := false } else st
  let st := if pyContains line ("Call tree".toList) then { st with read_tree := true } else st
  pure st

/-- `data_file_read_calltree` of post-processing/fuzz_data_loader.py, over
the list of lines of the .data file.  After the loop, line 86 of the source
appends the sorted remainder to the function_calls entry of the temporary
buffer dictionary itself (which is then discarded) rather than to
`function_call_depths`; the embedding keeps
that statement verbatim as the dead binding `tmp_final`, so the returned
value is the output list without the final depth group, exactly as in the
source. -/
def data_file_read_calltree (lines : List PyStr) : Option (List CallTreeNode) := do
  let init : CalltreeParseState :=
    { read_tree := false
      function_call_depths := []
      tmp_depth_x2 := -4
      tmp_function_calls := [] }
  let st ← lines.foldlM calltreeLineStep init
  let tmp_final := st.tmp_function_calls ++ sortByLinenumber st.tmp_function_calls
  let _ := tmp_final
  pure st.function_call_depths

/-!
## Data model of the post-processing loader

One function record, i.e. one element dictionary of the Elements list
under the All functions key of the loader yaml dictionary.  The
first five fields come from the compiler plugin yaml; the last four are the
entries written into the same dictionary during the merge
(`MergedProjectProfile.__init__` and `add_func_to_reached_and_clone`).  In
Python those entries do not exist before the merge writes them; here they
carry zero defaults, which the merge code never reads before writing.
`incoming_references` holds heap addresses, because the Python list holds
references to the other function dictionaries.
-/


/-- One function record dictionary of the loader; see the section comment. -/
structure FunctionRecord where
  functionName : PyStr
  functionSourceFile : PyStr
  CyclomaticComplexity : Int
  BBCount : Int
  functionsReached : List PyStr
  hitcount : Nat := 0
  incoming_references : List Nat := []
  total_cyclomatic_complexity : Int := 0
  new_unreached_complexity : Int := 0
deriving Repr, DecidableEq, Inhabited

/-- The mutable store of function record dictionaries.  Python dictionaries
are heap objects aliased between the fuzzer profiles and the merged profile;
the embedding makes the heap explicit and lets profiles hold addresses. -/
abbrev Heap := List FunctionRecord

/-- Read the record at an address (addresses produced by the code are always
in bounds; out of bounds reads return the default record). -/
def heapGet (h : Heap) (a : Nat) : FunctionRecord :=
  h.getD a default

/-- Write the record at an address (mutation of the Python dictionary). -/
def heapSet (h : Heap) (a : Nat) (r : FunctionRecord) : Heap :=
  h.set a r

/-- `FuzzerProfile` of post-processing/fuzz_data_loader.py, reduced to the
fields the merge engine reads: the reached and unreached name lists computed
by `accummulate_profile`, and `all_function_data`, held as heap addresses of
the record dictionaries (the Python attribute aliases the list of yaml
element dictionaries).  Before `set_all_reached_functions` runs, Python has
`funcsReachedByFuzzer = None`; the claims below only concern profiles after
accumulation, so the field simply holds the current list. -/
structure FuzzerProfile where
  funcsReachedByFuzzer : List PyStr := []
  funcsUnreachedByFuzzer : List PyStr := []
  all_function_data : List Nat
deriving Repr, DecidableEq

/-- `FuzzerProfile.set_all_reached_functions`: scan `all_function_data`; on
every record named LLVMFuzzerTestOneInput overwrite the reached list with
the `functionsReached` of that record (so the last match wins); if no record
matches, the initial empty list survives.  The trailing `None` check of the
source is dead code because the attribute is assigned `list()` first. -/
def FuzzerProfile.set_all_reached_functions (h : Heap) (p : FuzzerProfile) :
    FuzzerProfile :=
  let reached :=
    p.all_function_data.foldl
      (fun acc a =>
        if (heapGet h a).functionName = "LLVMFuzzerTestOneInput".toList then
          (heapGet h a).functionsReached
        else acc)
      []
  { p with funcsReachedByFuzzer := reached }

/-- `FuzzerProfile.set_all_unreached_functions`: every function name of
`all_function_data` that does not occur in `funcsReachedByFuzzer`, in record
order. -/
def FuzzerProfile.set_all_unreached_functions (h : Heap) (p : FuzzerProfile) :
    FuzzerProfile :=
  let unreached :=
    (p.all_function_data.filter
        (fun a => !(p.funcsReachedByFuzzer.contains (heapGet h a).functionName))).map
      (fun a => (heapGet h a).functionName)
  { p with funcsUnreachedByFuzzer := unreached }

/-- `FuzzerProfile.get_total_basic_blocks`: for every reached name, add the
`BBCount` of every record carrying that name (a reached name with no record
contributes nothing; the loop never raises).  The Python method stores the
sum in an attribute; the embedding returns it. -/
def FuzzerProfile.get_total_basic_blocks (h : Heap) (p : FuzzerProfile) : Int :=
  p.funcsReachedByFuzzer.foldl
    (fun total func =>
      p.all_function_data.foldl
        (fun total a =>
          if (heapGet h a).functionName = func then total + (heapGet h a).BBCount
          else total)
        total)
    0

/-- `FuzzerProfile.get_total_cyclomatic_complexity`: same scan as
`get_total_basic_blocks` over `CyclomaticComplexity`. -/
def FuzzerProfile.get_total_cyclomatic_complexity (h : Heap) (p : FuzzerProfile) : Int :=
  p.funcsReachedByFuzzer.foldl
    (fun total func =>
      p.all_function_data.foldl
        (fun total a =>
          if (heapGet h a).functionName = func then
            total + (heapGet h a).CyclomaticComplexity
          else total)
        total)
    0

/-- `FuzzerProfile.accummulate_profile` (loader spelling), restricted to the
steps that touch the embedded state: reached set, unreached set, and the two
totals, in source order.  The coverage correlation and file target steps
read coverage files and the calltree and do not touch the function records
or the reached lists, so they are outside this embedding.  Returns the
updated profile together with the two totals. -/
def FuzzerProfile.accummulate_profile (h : Heap) (p : FuzzerProfile) :
    FuzzerProfile × Int × Int :=
  let p := p.set_all_reached_functions h
  let p := p.set_all_unreached_functions h
  (p, p.get_total_basic_blocks h, p.get_total_cyclomatic_complexity h)

/-!
## The merged project profile
-/


/-- The test excluding runtime internal functions from the merged set:
the substring test for sanitizer or llvm on the functionName entry
(loader lines 249 and 250). -/
def sanitizerOrLLVM (name : PyStr) : Bool :=
  pyContains name ("sanitizer".toList) || pyContains name ("llvm".toList)

/-- The hit count computed for a record name during the merge: the number of
profiles whose `funcsReachedByFuzzer` contains the name. -/
def hitcountOf (profiles : List FuzzerProfile) (name : PyStr) : Nat :=
  profiles.countP (fun p2 => p2.funcsReachedByFuzzer.contains name)

/-- First loop of `MergedProjectProfile.__init__`: the union of the reached
name lists of all profiles (`self.functions_reached`, a Python set). -/
def mergedFunctionsReached (profiles : List FuzzerProfile) : Finset PyStr :=
  profiles.foldl
    (fun s p => p.funcsReachedByFuzzer.foldl (fun s n => insert n s) s) ∅

/-- Second loop of `MergedProjectProfile.__init__`: every unreached name of
some profile that is not in `functions_reached`
(`self.unreached_functions`). -/
def mergedUnreachedFunctions (profiles : List FuzzerProfile)
    (functions_reached : Finset PyStr) : Finset PyStr :=
  profiles.foldl
    (fun s p =>
      p.funcsUnreachedByFuzzer.foldl
        (fun s n => if n ∈ functions_reached then s else insert n s) s)
    ∅

/-- One iteration of the record gathering loop of
`MergedProjectProfile.__init__` (lines 247 to 268 of the loader): skip
sanitizer or llvm names, compute the hit count, detect duplicates by name
among the records gathered so far, write the hit count into the record
dictionary (duplicates included), and append first occurrences to
`all_functions`. -/
def gatherStep (profiles : List FuzzerProfile) (st : Heap × List Nat) (a : Nat) :
    Heap × List Nat :=
  let h := st.1
  let allF := st.2
  let fd := heapGet h a
  if sanitizerOrLLVM fd.functionName then (h, allF)
  else
    let hit := hitcountOf profiles fd.functionName
    let is_duplicate := allF.any (fun a1 => (heapGet h a1).functionName = fd.functionName)
    let h := heapSet h a { fd with hitcount := hit }
    (h, if is_duplicate then allF else allF ++ [a])

/-- The iteration order of `for profile in profiles: for fd in
profile.all_function_data`: all record addresses in profile order. -/
def profileAddrs (profiles : List FuzzerProfile) : List Nat :=
  profiles.flatMap (fun p => p.all_function_data)

/-- The record gathering loop of `MergedProjectProfile.__init__`, producing
the mutated heap and `self.all_functions` (a list of record addresses,
because the Python list holds references to the very record dictionaries of
the profiles). -/
def gatherFunctions (profiles : List FuzzerProfile) (h : Heap) : Heap × List Nat :=
  (profileAddrs profiles).foldl (gatherStep profiles) (h, [])

/-- One iteration of the incoming references loop (lines 272 to 277): the
addresses of all retained records whose `functionsReached` contains this
name of this record, written into the record. -/
def incomingStep (allF : List Nat) (h : Heap) (a : Nat) : Heap :=
  let fd1 := heapGet h a
  let incoming := allF.filter
    (fun a2 => (heapGet h a2).functionsReached.contains fd1.functionName)
  heapSet h a { fd1 with incoming_references := incoming }

/-- The incoming references loop over all retained records. -/
def setIncomingReferences (h : Heap) (allF : List Nat) : Heap :=
  allF.foldl (incomingStep allF) h

/-- The inner loop over `fd20` of the complexity pass of the merge (lines
282 to 298 of the loader, duplicated verbatim in
`add_func_to_reached_and_clone`): the summed complexity of the retained
records whose name occurs in the `functionsReached` of `fd10`
(`total_cyclomatic_complexity` in the source, before the own complexity of
the record is added). -/
def totalCyclomaticOf (h : Heap) (allF : List Nat) (fd10 : FunctionRecord) : Int :=
  allF.foldl
    (fun acc a2 =>
      if fd10.functionsReached.contains (heapGet h a2).functionName then
        acc + (heapGet h a2).CyclomaticComplexity
      else acc)
    0

/-- The inner loop over `fd21` of the complexity pass: the complexity of the
retained records reached from `fd10` that are currently unhit
(`total_new_complexity` in the source). -/
def totalNewComplexityOf (h : Heap) (allF : List Nat) (fd10 : FunctionRecord) : Int :=
  allF.foldl
    (fun acc a2 =>
      if fd10.functionsReached.contains (heapGet h a2).functionName
          && (heapGet h a2).hitcount == 0 then
        acc + (heapGet h a2).CyclomaticComplexity
      else acc)
    0

/-- The `new_unreached_complexity` value the complexity pass writes for a
record: `total_new_complexity`, plus the record complexity when the record
itself is unhit. -/
def nucOf (h : Heap) (allF : List Nat) (fd10 : FunctionRecord) : Int :=
  if fd10.hitcount == 0 then totalNewComplexityOf h allF fd10 + fd10.CyclomaticComplexity
  else totalNewComplexityOf h allF fd10

/-- One iteration of the complexity loop: compute the two sums for the
record at `a` and write `new_unreached_complexity` (the sum over unhit
reached records, plus the own complexity when the record is unhit) and
`total_cyclomatic_complexity` (the sum over all reached records plus the
own complexity) into the record. -/
def complexityStep (allF : List Nat) (h : Heap) (a : Nat) : Heap :=
  let fd10 := heapGet h a
  heapSet h a
    { fd10 with
      new_unreached_complexity := nucOf h allF fd10
      total_cyclomatic_complexity := totalCyclomaticOf h allF fd10 + fd10.CyclomaticComplexity }

/-- The complexity loop over all retained records. -/
def setComplexities (h : Heap) (allF : List Nat) : Heap :=
  allF.foldl (complexityStep allF) h

/-- `MergedProjectProfile` of the loader: the profile list (aliased from the
argument), the retained record addresses, and the two name sets. -/
structure MergedProjectProfile where
  profiles : List FuzzerProfile
  all_functions : List Nat
  functions_reached : Finset PyStr
  unreached_functions : Finset PyStr
deriving DecidableEq

/-- `MergedProjectProfile.__init__`: the four passes in source order.  The
constructor never raises, whatever the profile list; with an empty list all
loops run zero times.  (The trailing `do_refinement` block of the source is
dead code behind a constant False.)  Returns the mutated heap together with
the merged profile. -/
def MergedProjectProfile.init (h : Heap) (profiles : List FuzzerProfile) :
    Heap × MergedProjectProfile :=
  let functions_reached := mergedFunctionsReached profiles
  let unreached_functions := mergedUnreachedFunctions profiles functions_reached
  let gathered := gatherFunctions profiles h
  let h2 := setIncomingReferences gathered.1 gathered.2
  let h3 := setComplexities h2 gathered.2
  (h3,
    { profiles := profiles
      all_functions := gathered.2
      functions_reached := functions_reached
      unreached_functions := unreached_functions })

/-- `get_total_unreached_function_count`: retained records with hit count
zero. -/
def MergedProjectProfile.get_total_unreached_function_count (h : Heap)
    (mp : MergedProjectProfile) : Nat :=
  mp.all_functions.countP (fun a => (heapGet h a).hitcount == 0)

/-- `get_total_reached_function_count`: retained records with nonzero hit
count. -/
def MergedProjectProfile.get_total_reached_function_count (h : Heap)
    (mp : MergedProjectProfile) : Nat :=
  mp.all_functions.countP (fun a => (heapGet h a).hitcount != 0)

/-!
## Clone and simulate

`add_func_to_reached_and_clone` starts with `copy.deepcopy(merged_profile_old)`.
Deep copying the merged profile copies every function record dictionary
reachable from it exactly once (the copy preserves the aliasing structure:
a record referenced both from a profile and from `all_functions` yields one
fresh record referenced from both copies).  The embedding allocates the
fresh records at the end of the heap, in first-reference order, and rewrites
every address through `remapAddr`.
-/


/-- The distinct record addresses reachable from a merged profile, in
first-reference order: the profile record lists, then `all_functions` (whose
entries are normally aliases of the former). -/
def cloneAddrs (mp : MergedProjectProfile) : List Nat :=
  ((mp.profiles.flatMap (fun p => p.all_function_data)) ++ mp.all_functions).dedup

/-- Where deep copy sends an address: the fresh cell allocated for it (an
address outside the copied object graph is left alone; the merge never
produces such an address). -/
def remapAddr (addrs : List Nat) (base a : Nat) : Nat :=
  if a ∈ addrs then base + addrs.indexOf a else a

/-- The fresh copy of one record: field for field, with the incoming
reference addresses rewritten to the fresh cells, as deep copy does. -/
def copyRecord (addrs : List Nat) (base : Nat) (r : FunctionRecord) : FunctionRecord :=
  { r with incoming_references := r.incoming_references.map (remapAddr addrs base) }

/-- `copy.deepcopy(merged_profile_old)`: allocate a fresh copy of every
reachable record at the end of the heap and rewrite all addresses. -/
def deepcopyMerged (h : Heap) (mp : MergedProjectProfile) :
    Heap × MergedProjectProfile :=
  let addrs := cloneAddrs mp
  let base := h.length
  let fresh := addrs.map (fun a => copyRecord addrs base (heapGet h a))
  (h ++ fresh,
    { profiles :=
        mp.profiles.map
          (fun p => { p with all_function_data :=
                        p.all_function_data.map (remapAddr addrs base) })
      all_functions := mp.all_functions.map (remapAddr addrs base)
      functions_reached := mp.functions_reached
      unreached_functions := mp.unreached_functions })

/-- The hit count update loop of `add_func_to_reached_and_clone` (lines 337
to 342): in the clone, set the hit count of the target record (matched by
name and complexity) to one, and set the hit count of every currently unhit
record whose name occurs in the `functionsReached` of the target to one. -/
def hitUpdateStep (func_dict_old : FunctionRecord) (h : Heap) (a : Nat) : Heap :=
  let fd := heapGet h a
  let fd :=
    if fd.functionName = func_dict_old.functionName
        && fd.CyclomaticComplexity == func_dict_old.CyclomaticComplexity then
      { fd with hitcount := 1 }
    else fd
  let fd :=
    if func_dict_old.functionsReached.contains fd.functionName
        && fd.hitcount == 0 then
      { fd with hitcount := 1 }
    else fd
  heapSet h a fd

/-- The hit count update loop, iterated over `merged_profile.all_functions`
of the clone. -/
def updateHitcounts (func_dict_old : FunctionRecord) (h : Heap) (allF : List Nat) :
    Heap :=
  allF.foldl (hitUpdateStep func_dict_old) h

/-- `add_func_to_reached_and_clone`: deep copy the merged profile, update
the hit counts in the copy, and re-run the complexity loop (the source
repeats the loop of `MergedProjectProfile.__init__` lines 282 to 298
verbatim, so the embedding reuses `setComplexities`).  Returns the grown
heap and the clone. -/
def add_func_to_reached_and_clone (h : Heap) (mp : MergedProjectProfile)
    (func_dict_old : FunctionRecord) : Heap × MergedProjectProfile :=
  let copied := deepcopyMerged h mp
  let h2 := updateHitcounts func_dict_old copied.1 copied.2.all_functions
  let h3 := setComplexities h2 copied.2.all_functions
  (h3, copied.2)

/-!
## The datatypes variant of the fuzzer profile

src/fuzz_introspector/datatypes/fuzzer_profile.py holds the newer
`FuzzerProfile` keyed on `all_class_functions`, a dictionary from function
name to `FunctionProfile`.  The embedding (D suffix) models the dictionary
as an association list in insertion order; `_set_function_list` keys every
entry by the `function_name` of its value.  Only the fields and methods the
claims touch are embedded.
-/


/-- `datatypes.function_profile.FunctionProfile`, reduced to the fields the
embedded methods read. -/
structure FunctionProfileD where
  function_name : PyStr
  functions_reached : List PyStr
  bb_count : Int
  cyclomatic_complexity : Int
deriving Repr, DecidableEq

/-- The datatypes `FuzzerProfile`, reduced to the fields the embedded
methods read and write. -/
structure FuzzerProfileD where
  all_class_functions : List (PyStr × FunctionProfileD)
  functions_reached_by_fuzzer : List PyStr := []
  functions_unreached_by_fuzzer : List PyStr := []
  total_basic_blocks : Int := 0
  total_cyclomatic_complexity : Int := 0
deriving Repr, DecidableEq

/-- `FuzzerProfile._set_all_reached_functions` of the datatypes module: take
the `functions_reached` of the record keyed LLVMFuzzerTestOneInput; else of
the first record whose key contains TestOneInput; else raise (`none`). -/
def FuzzerProfileD.set_all_reached_functions (p : FuzzerProfileD) :
    Option FuzzerProfileD :=
  match p.all_class_functions.find? (fun kv => kv.1 = "LLVMFuzzerTestOneInput".toList) with
  | some kv => some { p with functions_reached_by_fuzzer := kv.2.functions_reached }
  | none =>
    match p.all_class_functions.find? (fun kv => pyContains kv.1 ("TestOneInput".toList)) with
    | some kv => some { p with functions_reached_by_fuzzer := kv.2.functions_reached }
    | none => none

/-- `FuzzerProfile._set_all_unreached_functions` of the datatypes module:
the names of all values of `all_class_functions` that do not occur in
`functions_reached_by_fuzzer`. -/
def FuzzerProfileD.set_all_unreached_functions (p : FuzzerProfileD) :
    FuzzerProfileD :=
  let unreached :=
    (p.all_class_functions.map (fun kv => kv.2.function_name)).filter
      (fun n => !(p.functions_reached_by_fuzzer.contains n))
  { p with functions_unreached_by_fuzzer := unreached }

/-- `FuzzerProfile._set_total_basic_blocks` of the datatypes module: sum the
`bb_count` of `all_class_functions[func]` over the reached names.  The
subscript raises KeyError when a reached name is not a key; `none` models
that exception escaping. -/
def FuzzerProfileD.set_total_basic_blocks (p : FuzzerProfileD) :
    Option FuzzerProfileD :=
  let total? : Option Int :=
    p.functions_reached_by_fuzzer.foldlM
      (fun (total : Int) func =>
        match p.all_class_functions.find? (fun kv => kv.1 = func) with
        | some kv => some (total + kv.2.bb_count)
        | none => none)
      (0 : Int)
  total?.map (fun t => { p with total_basic_blocks := t })

/-- The keys of `all_class_functions`, in insertion order. -/
def FuzzerProfileD.classFunctionKeys (p : FuzzerProfileD) : List PyStr :=
  p.all_class_functions.map (fun kv => kv.1)

/-!
## Heap lemmas
-/


/-!
## Derived definitions, invariants and example data used by the lemmas below
-/

/-- The static fields of a record (never written after construction). -/
def baseOf (r : FunctionRecord) : PyStr × Int × Int × List PyStr :=
  (r.functionName, r.CyclomaticComplexity, r.BBCount, r.functionsReached)

/-- The static fields together with the hit count. -/
def coreOf (r : FunctionRecord) : (PyStr × Int × Int × List PyStr) × Nat :=
  (baseOf r, r.hitcount)

/-- The retained address accumulation of the gathering loop, phrased over a
fixed assignment `nf` of names to addresses. -/
def pureGatherAux (nf : Nat → PyStr) : List Nat → List Nat → List Nat
  | [], acc => acc
  | a :: T, acc =>
    if sanitizerOrLLVM (nf a) then pureGatherAux nf T acc
    else if acc.any (fun b => nf b = nf a) then pureGatherAux nf T acc
    else pureGatherAux nf T (acc ++ [a])

/-- The incoming reference list the pass computes for a record, read over a
given heap. -/
def incomingOf (h : Heap) (allF : List Nat) (fd1 : FunctionRecord) : List Nat :=
  allF.filter (fun a2 => (heapGet h a2).functionsReached.contains fd1.functionName)

/-- Well formed inputs to the merge: the record addresses of the profiles
are pairwise distinct and in bounds. -/
def ProfilesWF (h : Heap) (profiles : List FuzzerProfile) : Prop :=
  (profileAddrs profiles).Nodup ∧ ∀ a ∈ profileAddrs profiles, a < h.length

/-- Every record of the heap has nonnegative cyclomatic complexity (the
compiler plugin emits counts; the out of bounds default record has zero). -/
def HeapCCNonneg (h : Heap) : Prop :=
  ∀ b, 0 ≤ (heapGet h b).CyclomaticComplexity

/-- The state invariant the merge establishes and the clone operation
re-establishes: the retained addresses are pairwise distinct, and every
retained record carries the `new_unreached_complexity` recomputable from
the current heap. -/
def MergedInv (h : Heap) (mp : MergedProjectProfile) : Prop :=
  mp.all_functions.Nodup ∧
  ∀ a ∈ mp.all_functions,
    (heapGet h a).new_unreached_complexity = nucOf h mp.all_functions (heapGet h a)

/-- Iterated cloning: apply `add_func_to_reached_and_clone` for each target
record in turn, threading the heap. -/
def applyClones (s : Heap × MergedProjectProfile) (ts : List FunctionRecord) :
    Heap × MergedProjectProfile :=
  ts.foldl (fun s t => add_func_to_reached_and_clone s.1 s.2 t) s

/-- An entry point record whose reached list names a function that has no
record of its own (the plugin output is allowed to be inconsistent). -/
def exEntryGhost : FunctionRecord :=
  { functionName := "LLVMFuzzerTestOneInput".toList
    functionSourceFile := "/a.c".toList
    CyclomaticComplexity := 2
    BBCount := 3
    functionsReached := ["foo".toList] }

/-- A heap with the ghost reaching entry point only. -/
def exHeapGhost : Heap := [exEntryGhost]

/-- The profile over `exHeapGhost`, accumulated by the loader methods. -/
def exProfGhost : FuzzerProfile :=
  ((FuzzerProfile.mk [] [] [0]).set_all_reached_functions exHeapGhost).set_all_unreached_functions
    exHeapGhost

/-- A consistent heap: the entry point reaches foo, and foo has a record. -/
def exHeapOk : Heap :=
  [ { functionName := "LLVMFuzzerTestOneInput".toList
      functionSourceFile := "/a.c".toList
      CyclomaticComplexity := 2
      BBCount := 3
      functionsReached := ["foo".toList] },
    { functionName := "foo".toList
      functionSourceFile := "/b.c".toList
      CyclomaticComplexity := 3
      BBCount := 1
      functionsReached := [] } ]

/-- The profile over `exHeapOk`, accumulated by the loader methods. -/
def exProfOk : FuzzerProfile :=
  ((FuzzerProfile.mk [] [] [0, 1]).set_all_reached_functions exHeapOk).set_all_unreached_functions
    exHeapOk

/-- The scenario of the C5 examples: foo (complexity three) reaches only
bar (complexity five); nothing is reached by the fuzzer, so both have hit
count zero. -/
def exHeapFooBar : Heap :=
  [ { functionName := "LLVMFuzzerTestOneInput".toList
      functionSourceFile := "/a.c".toList
      CyclomaticComplexity := 1
      BBCount := 1
      functionsReached := [] },
    { functionName := "foo".toList
      functionSourceFile := "/b.c".toList
      CyclomaticComplexity := 3
      BBCount := 1
      functionsReached := ["bar".toList] },
    { functionName := "bar".toList
      functionSourceFile := "/b.c".toList
      CyclomaticComplexity := 5
      BBCount := 1
      functionsReached := [] } ]

/-- The profile over `exHeapFooBar`, accumulated by the loader methods. -/
def exProfFooBar : FuzzerProfile :=
  ((FuzzerProfile.mk [] [] [0, 1, 2]).set_all_reached_functions
      exHeapFooBar).set_all_unreached_functions exHeapFooBar

/-- Like `exHeapFooBar` but the entry point reaches bar, so bar has hit
count one (the second example of claim C5). -/
def exHeapFooBarHit : Heap :=
  [ { functionName := "LLVMFuzzerTestOneInput".toList
      functionSourceFile := "/a.c".toList
      CyclomaticComplexity := 1
      BBCount := 1
      functionsReached := ["bar".toList] },
    { functionName := "foo".toList
      functionSourceFile := "/b.c".toList
      CyclomaticComplexity := 3
      BBCount := 1
      functionsReached := ["bar".toList] },
    { functionName := "bar".toList
      functionSourceFile := "/b.c".toList
      CyclomaticComplexity := 5
      BBCount := 1
      functionsReached := [] } ]

/-- The profile over `exHeapFooBarHit`, accumulated by the loader methods. -/
def exProfFooBarHit : FuzzerProfile :=
  ((FuzzerProfile.mk [] [] [0, 1, 2]).set_all_reached_functions
      exHeapFooBarHit).set_all_unreached_functions exHeapFooBarHit

/-- C4, witness for the amended claim: a consistent single fuzzer project
(the entry point reaches foo and foo has a record); both counts are one,
and the retained records carry the per name fuzzer counts. -/
instance decidableProfilesWF (h : Heap) (ps : List FuzzerProfile) :
    Decidable (ProfilesWF h ps) := by
  unfold ProfilesWF
  infer_instance

/-- A datatypes profile whose only record is the entry point, which reaches
a name with no record of its own. -/
def exProfDGhost : FuzzerProfileD :=
  FuzzerProfileD.mk
    [("LLVMFuzzerTestOneInput".toList,
      FunctionProfileD.mk ("LLVMFuzzerTestOneInput".toList) ["ghost".toList] 4 2)]
    [] [] 0 0

/-- The state of `exProfDGhost` after the reached set step. -/
def exProfDGhostReached : FuzzerProfileD :=
  FuzzerProfileD.mk
    [("LLVMFuzzerTestOneInput".toList,
      FunctionProfileD.mk ("LLVMFuzzerTestOneInput".toList) ["ghost".toList] 4 2)]
    ["ghost".toList] [] 0 0

/-- A consistent datatypes profile: the entry point reaches foo, and foo
has a record keyed by its own name. -/
def exProfDOk : FuzzerProfileD :=
  FuzzerProfileD.mk
    [("LLVMFuzzerTestOneInput".toList,
      FunctionProfileD.mk ("LLVMFuzzerTestOneInput".toList) ["foo".toList] 4 2),
     ("foo".toList, FunctionProfileD.mk ("foo".toList) [] 7 3)]
    [] [] 0 0

/-- The state of `exProfDOk` after the reached set step. -/
def exProfDOkReached : FuzzerProfileD :=
  FuzzerProfileD.mk
    [("LLVMFuzzerTestOneInput".toList,
      FunctionProfileD.mk ("LLVMFuzzerTestOneInput".toList) ["foo".toList] 4 2),
     ("foo".toList, FunctionProfileD.mk ("foo".toList) [] 7 3)]
    ["foo".toList] [] 0 0

theorem heapSet_length (h : Heap) (a : Nat) (r : FunctionRecord) :
    (heapSet h a r).length = h.length :=
  List.length_set h a r

theorem heapGet_heapSet (h : Heap) (a b : Nat) (r : FunctionRecord) :
    heapGet (heapSet h a r) b =
      if a = b ∧ a < h.length then r else heapGet h b := by
  unfold heapGet heapSet
  rw [List.getD_eq_getElem?_getD, List.getD_eq_getElem?_getD, List.getElem?_set]
  by_cases hab : a = b
  · subst hab
    by_cases hlt : a < h.length
    · simp [hlt]
    · simp [hlt, List.getElem?_eq_none (Nat.le_of_not_lt hlt)]
  · simp [hab]

theorem heapGet_heapSet_ne (h : Heap) (a b : Nat) (r : FunctionRecord)
    (hne : a ≠ b) : heapGet (heapSet h a r) b = heapGet h b := by
  rw [heapGet_heapSet]
  simp [hne]

theorem heapGet_heapSet_self (h : Heap) (a : Nat) (r : FunctionRecord)
    (hlt : a < h.length) : heapGet (heapSet h a r) a = r := by
  rw [heapGet_heapSet]
  simp [hlt]

/-- Generic fold congruence: two step functions agreeing on the members of
the list fold to the same value. -/
theorem foldl_congr_mem {α β : Type} {L : List α} {f g : β → α → β} {init : β}
    (hfg : ∀ acc, ∀ b ∈ L, f acc b = g acc b) : L.foldl f init = L.foldl g init := by
  induction L generalizing init with
  | nil => rfl
  | cons x T ih =>
    simp only [List.foldl_cons]
    rw [hfg init x (by simp)]
    exact ih (fun acc b hb => hfg acc b (by simp [hb]))

/-- A conditional accumulation fold is the sum of the mapped filtered list. -/
theorem foldl_if_sum {α : Type} (L : List α) (p : α → Bool) (f : α → Int) :
    ∀ init : Int,
      L.foldl (fun acc b => if p b then acc + f b else acc) init =
        init + ((L.filter p).map f).sum := by
  induction L with
  | nil => simp
  | cons x T ih =>
    intro init
    simp only [List.foldl_cons, List.filter_cons]
    by_cases hx : p x
    · simp only [hx, if_true, List.map_cons, List.sum_cons]
      rw [ih]
      ring
    · simp only [hx, Bool.false_eq_true, if_false]
      exact ih init

/-!
## Field projections preserved by the passes

`baseOf` collects the fields written by the plugin and never modified by
any pass; `coreOf` adds the hit count, which the incoming and complexity
passes also leave alone.
-/


theorem gatherStep_baseOf (profiles : List FuzzerProfile) (st : Heap × List Nat)
    (a b : Nat) :
    baseOf (heapGet (gatherStep profiles st a).1 b) = baseOf (heapGet st.1 b) := by
  unfold gatherStep
  by_cases hskip : sanitizerOrLLVM (heapGet st.1 a).functionName
  · simp [hskip]
  · simp only [hskip, Bool.false_eq_true, if_false]
    rw [heapGet_heapSet]
    split
    · next hcond => rw [hcond.1]; rfl
    · rfl

theorem gatherStep_length (profiles : List FuzzerProfile) (st : Heap × List Nat)
    (a : Nat) : (gatherStep profiles st a).1.length = st.1.length := by
  unfold gatherStep
  by_cases hskip : sanitizerOrLLVM (heapGet st.1 a).functionName
  · simp [hskip]
  · simp [hskip, heapSet_length]

theorem gatherFold_baseOf (profiles : List FuzzerProfile) (L : List Nat) :
    ∀ (st : Heap × List Nat) (b : Nat),
      baseOf (heapGet (L.foldl (gatherStep profiles) st).1 b) = baseOf (heapGet st.1 b) := by
  induction L with
  | nil => intro st b; rfl
  | cons a T ih =>
    intro st b
    rw [List.foldl_cons, ih, gatherStep_baseOf]

theorem gatherFold_length (profiles : List FuzzerProfile) (L : List Nat) :
    ∀ (st : Heap × List Nat),
      (L.foldl (gatherStep profiles) st).1.length = st.1.length := by
  induction L with
  | nil => intro st; rfl
  | cons a T ih =>
    intro st
    rw [List.foldl_cons, ih, gatherStep_length]

theorem functionName_of_baseOf {r s : FunctionRecord} (h : baseOf r = baseOf s) :
    r.functionName = s.functionName :=
  congrArg (fun t => t.1) h

theorem cyclomatic_of_baseOf {r s : FunctionRecord} (h : baseOf r = baseOf s) :
    r.CyclomaticComplexity = s.CyclomaticComplexity :=
  congrArg (fun t => t.2.1) h

theorem bbcount_of_baseOf {r s : FunctionRecord} (h : baseOf r = baseOf s) :
    r.BBCount = s.BBCount :=
  congrArg (fun t => t.2.2.1) h

theorem reached_of_baseOf {r s : FunctionRecord} (h : baseOf r = baseOf s) :
    r.functionsReached = s.functionsReached :=
  congrArg (fun t => t.2.2.2) h

theorem baseOf_of_coreOf {r s : FunctionRecord} (h : coreOf r = coreOf s) :
    baseOf r = baseOf s :=
  congrArg (fun t => t.1) h

theorem hitcount_of_coreOf {r s : FunctionRecord} (h : coreOf r = coreOf s) :
    r.hitcount = s.hitcount :=
  congrArg (fun t => t.2) h

/-- The gathering step with a sanitizer or llvm name leaves the state
alone. -/
theorem gatherStep_skip (profiles : List FuzzerProfile) (st : Heap × List Nat)
    (a : Nat) (hskip : sanitizerOrLLVM (heapGet st.1 a).functionName = true) :
    gatherStep profiles st a = st := by
  simp [gatherStep, hskip]

/-- The gathering step on a retained name: write the hit count, and append
the address unless the name is already represented. -/
theorem gatherStep_noskip (profiles : List FuzzerProfile) (st : Heap × List Nat)
    (a : Nat) (hskip : ¬sanitizerOrLLVM (heapGet st.1 a).functionName = true) :
    gatherStep profiles st a =
      (heapSet st.1 a
          { heapGet st.1 a with
            hitcount := hitcountOf profiles (heapGet st.1 a).functionName },
        if st.2.any
            (fun a1 => (heapGet st.1 a1).functionName = (heapGet st.1 a).functionName)
          then st.2 else st.2 ++ [a]) := by
  simp [gatherStep, hskip]

theorem gatherStep_untouched (profiles : List FuzzerProfile) (st : Heap × List Nat)
    (x a : Nat) (hxa : x ≠ a) :
    heapGet (gatherStep profiles st x).1 a = heapGet st.1 a := by
  by_cases hskip : sanitizerOrLLVM (heapGet st.1 x).functionName = true
  · rw [gatherStep_skip profiles st x hskip]
  · rw [gatherStep_noskip profiles st x hskip]
    exact heapGet_heapSet_ne _ _ _ _ hxa

theorem gatherFold_untouched (profiles : List FuzzerProfile) (L : List Nat) :
    ∀ (st : Heap × List Nat) (a : Nat), a ∉ L →
      heapGet (L.foldl (gatherStep profiles) st).1 a = heapGet st.1 a := by
  induction L with
  | nil => intro st a _; rfl
  | cons x T ih =>
    intro st a ha
    rw [List.foldl_cons, ih _ a (fun hmem => ha (by simp [hmem])),
      gatherStep_untouched profiles st x a (fun hxa => ha (by simp [hxa]))]

/-- What the gathering loop writes at each address of its iteration list:
skipped records are untouched, retained ones get exactly the hit count of
their name. -/
theorem gatherFold_hit (profiles : List FuzzerProfile) (L : List Nat) :
    ∀ (st : Heap × List Nat), L.Nodup → (∀ x ∈ L, x < st.1.length) →
      ∀ a ∈ L,
        heapGet (L.foldl (gatherStep profiles) st).1 a =
          (if sanitizerOrLLVM (heapGet st.1 a).functionName then heapGet st.1 a
           else
             { heapGet st.1 a with
               hitcount := hitcountOf profiles (heapGet st.1 a).functionName }) := by
  induction L with
  | nil => intro st _ _ a ha; cases ha
  | cons x T ih =>
    intro st hnd hvalid a ha
    rw [List.foldl_cons]
    rcases List.mem_cons.mp ha with hax | haT
    · subst hax
      have hnotT : a ∉ T := (List.nodup_cons.mp hnd).1
      rw [gatherFold_untouched profiles T _ a hnotT]
      by_cases hskip : sanitizerOrLLVM (heapGet st.1 a).functionName = true
      · rw [gatherStep_skip profiles st a hskip, if_pos hskip]
      · rw [gatherStep_noskip profiles st a hskip, if_neg hskip]
        exact heapGet_heapSet_self _ _ _ (hvalid a (by simp))
    · have hxa : x ≠ a := fun hxa => (List.nodup_cons.mp hnd).1 (hxa ▸ haT)
      have hstep := gatherStep_untouched profiles st x a hxa
      rw [ih _ (List.nodup_cons.mp hnd).2
          (fun y hy => by rw [gatherStep_length]; exact hvalid y (by simp [hy]))
          a haT, hstep]

/-!
## The retained address list, characterised

The second component of the gathering fold depends on the heap only through
the (never rewritten) record names.  `pureGatherAux` computes it from a
fixed name assignment, which makes its properties provable without heap
reasoning.
-/


/-- The gathering fold computes `pureGatherAux` of the initial names. -/
theorem gatherFold_allF (profiles : List FuzzerProfile) (L : List Nat) :
    ∀ (h : Heap) (acc : List Nat) (nf : Nat → PyStr),
      (∀ b, (heapGet h b).functionName = nf b) →
      (L.foldl (gatherStep profiles) (h, acc)).2 = pureGatherAux nf L acc := by
  induction L with
  | nil => intro h acc nf _; rfl
  | cons a T ih =>
    intro h acc nf hnf
    rw [List.foldl_cons]
    by_cases hskip : sanitizerOrLLVM (nf a) = true
    · rw [gatherStep_skip profiles (h, acc) a (by rw [hnf a]; exact hskip)]
      rw [pureGatherAux, if_pos hskip]
      exact ih h acc nf hnf
    · have hskip0 : ¬sanitizerOrLLVM (heapGet (h, acc).1 a).functionName = true := by
        rw [hnf a]; exact hskip
      rw [gatherStep_noskip profiles (h, acc) a hskip0]
      have hnf2 : ∀ (r : FunctionRecord), r.functionName = nf a → ∀ b,
          (heapGet (heapSet h a r) b).functionName = nf b := by
        intro r hr b
        rw [heapGet_heapSet]
        split
        · next hc => rw [← hc.1]; exact hr
        · exact hnf b
      simp only [hnf]
      rw [pureGatherAux, if_neg hskip]
      by_cases hany : acc.any (fun b => nf b = nf a) = true
      · rw [if_pos hany, if_pos hany]
        exact ih _ acc nf (hnf2 _ rfl)
      · rw [if_neg hany, if_neg hany]
        exact ih _ (acc ++ [a]) nf (hnf2 _ rfl)

theorem pureGatherAux_mem (nf : Nat → PyStr) (L : List Nat) :
    ∀ (acc : List Nat) (x : Nat), x ∈ pureGatherAux nf L acc → x ∈ acc ∨ x ∈ L := by
  induction L with
  | nil => intro acc x hx; exact Or.inl hx
  | cons a T ih =>
    intro acc x hx
    rw [pureGatherAux] at hx
    split at hx
    · rcases ih acc x hx with h | h
      · exact Or.inl h
      · exact Or.inr (by simp [h])
    · split at hx
      · rcases ih acc x hx with h | h
        · exact Or.inl h
        · exact Or.inr (by simp [h])
      · rcases ih (acc ++ [a]) x hx with h | h
        · rcases List.mem_append.mp h with h | h
          · exact Or.inl h
          · exact Or.inr (by simp at h; simp [h])
        · exact Or.inr (by simp [h])

theorem pureGatherAux_sup (nf : Nat → PyStr) (L : List Nat) :
    ∀ (acc : List Nat) (x : Nat), x ∈ acc → x ∈ pureGatherAux nf L acc := by
  induction L with
  | nil => intro acc x hx; exact hx
  | cons a T ih =>
    intro acc x hx
    rw [pureGatherAux]
    split
    · exact ih acc x hx
    · split
      · exact ih acc x hx
      · exact ih (acc ++ [a]) x (by simp [hx])

theorem pureGatherAux_namesNodup (nf : Nat → PyStr) (L : List Nat) :
    ∀ acc : List Nat, ((acc.map nf).Nodup) →
      ((pureGatherAux nf L acc).map nf).Nodup := by
  induction L with
  | nil => intro acc h; exact h
  | cons a T ih =>
    intro acc hacc
    rw [pureGatherAux]
    split
    · exact ih acc hacc
    · split
      · exact ih acc hacc
      · next hany =>
        apply ih (acc ++ [a])
        rw [List.map_append, List.map_singleton]
        rw [List.nodup_append]
        refine ⟨hacc, by simp, ?_⟩
        intro y hy
        simp only [List.mem_singleton]
        intro hcontra
        subst hcontra
        rcases List.mem_map.mp hy with ⟨b, hb, hba⟩
        exact hany (List.any_eq_true.mpr ⟨b, hb, by simp [hba]⟩)

theorem pureGatherAux_cover (nf : Nat → PyStr) (L : List Nat) :
    ∀ (acc : List Nat) (a : Nat), a ∈ L → ¬sanitizerOrLLVM (nf a) = true →
      nf a ∈ (pureGatherAux nf L acc).map nf := by
  induction L with
  | nil => intro acc a ha _; cases ha
  | cons x T ih =>
    intro acc a ha hskip
    rw [pureGatherAux]
    rcases List.mem_cons.mp ha with hax | haT
    · subst hax
      rw [if_neg hskip]
      by_cases hany : acc.any (fun b => nf b = nf a) = true
      · rw [if_pos hany]
        rcases List.any_eq_true.mp hany with ⟨b, hb, hba⟩
        have : nf b = nf a := by simpa using hba
        rw [← this]
        exact List.mem_map_of_mem nf (pureGatherAux_sup nf T acc b hb)
      · rw [if_neg hany]
        have : a ∈ pureGatherAux nf T (acc ++ [a]) :=
          pureGatherAux_sup nf T (acc ++ [a]) a (by simp)
        exact List.mem_map_of_mem nf this
    · split
      · exact ih acc a haT hskip
      · split
        · exact ih acc a haT hskip
        · exact ih (acc ++ [x]) a haT hskip

theorem pureGatherAux_noskip (nf : Nat → PyStr) (L : List Nat) :
    ∀ acc : List Nat, (∀ x ∈ acc, ¬sanitizerOrLLVM (nf x) = true) →
      ∀ x ∈ pureGatherAux nf L acc, ¬sanitizerOrLLVM (nf x) = true := by
  induction L with
  | nil => intro acc hacc x hx; exact hacc x hx
  | cons a T ih =>
    intro acc hacc x hx
    rw [pureGatherAux] at hx
    split at hx
    · exact ih acc hacc x hx
    · split at hx
      · exact ih acc hacc x hx
      · next hskip _ =>
        refine ih (acc ++ [a]) ?_ x hx
        intro y hy
        rcases List.mem_append.mp hy with h | h
        · exact hacc y h
        · simp only [List.mem_singleton] at h
          subst h
          exact hskip

/-!
## The incoming references pass
-/


theorem incomingStep_coreOf (allF0 : List Nat) (h : Heap) (x b : Nat) :
    coreOf (heapGet (incomingStep allF0 h x) b) = coreOf (heapGet h b) := by
  unfold incomingStep
  rw [heapGet_heapSet]
  split
  · next hc => rw [hc.1]; rfl
  · rfl

theorem incomingStep_length (allF0 : List Nat) (h : Heap) (x : Nat) :
    (incomingStep allF0 h x).length = h.length := by
  unfold incomingStep
  exact heapSet_length _ _ _

theorem incomingStep_untouched (allF0 : List Nat) (h : Heap) (x a : Nat)
    (hxa : x ≠ a) : heapGet (incomingStep allF0 h x) a = heapGet h a := by
  unfold incomingStep
  exact heapGet_heapSet_ne _ _ _ _ hxa

theorem incomingFold_coreOf (allF0 : List Nat) (as : List Nat) :
    ∀ (h : Heap) (b : Nat),
      coreOf (heapGet (as.foldl (incomingStep allF0) h) b) = coreOf (heapGet h b) := by
  induction as with
  | nil => intro h b; rfl
  | cons x T ih =>
    intro h b
    rw [List.foldl_cons, ih, incomingStep_coreOf]

theorem incomingFold_length (allF0 : List Nat) (as : List Nat) :
    ∀ h : Heap, (as.foldl (incomingStep allF0) h).length = h.length := by
  induction as with
  | nil => intro h; rfl
  | cons x T ih =>
    intro h
    rw [List.foldl_cons, ih, incomingStep_length]

theorem incomingFold_untouched (allF0 : List Nat) (as : List Nat) :
    ∀ (h : Heap) (a : Nat), a ∉ as →
      heapGet (as.foldl (incomingStep allF0) h) a = heapGet h a := by
  induction as with
  | nil => intro h a _; rfl
  | cons x T ih =>
    intro h a ha
    rw [List.foldl_cons, ih _ a (fun hmem => ha (by simp [hmem])),
      incomingStep_untouched allF0 h x a (fun hxa => ha (by simp [hxa]))]

theorem incomingOf_congr (h1 h2 : Heap) (allF : List Nat) (fd : FunctionRecord)
    (hc : ∀ b, coreOf (heapGet h1 b) = coreOf (heapGet h2 b)) :
    incomingOf h1 allF fd = incomingOf h2 allF fd := by
  unfold incomingOf
  have hfun :
      (fun a2 => (heapGet h1 a2).functionsReached.contains fd.functionName) =
        (fun a2 => (heapGet h2 a2).functionsReached.contains fd.functionName) := by
    funext a2
    rw [reached_of_baseOf (baseOf_of_coreOf (hc a2))]
  rw [hfun]

/-- What the incoming pass writes at each address of its iteration list. -/
theorem incomingFold_spec (allF0 : List Nat) (as : List Nat) :
    ∀ h : Heap, as.Nodup → (∀ x ∈ as, x < h.length) → ∀ a ∈ as,
      heapGet (as.foldl (incomingStep allF0) h) a =
        { heapGet h a with
          incoming_references := incomingOf h allF0 (heapGet h a) } := by
  induction as with
  | nil => intro h _ _ a ha; cases ha
  | cons x T ih =>
    intro h hnd hvalid a ha
    rw [List.foldl_cons]
    rcases List.mem_cons.mp ha with hax | haT
    · subst hax
      have hnotT : a ∉ T := (List.nodup_cons.mp hnd).1
      rw [incomingFold_untouched allF0 T _ a hnotT]
      unfold incomingStep
      rw [heapGet_heapSet_self _ _ _ (hvalid a (by simp))]
      rfl
    · have hxa : x ≠ a := fun hxa => (List.nodup_cons.mp hnd).1 (hxa ▸ haT)
      rw [ih _ (List.nodup_cons.mp hnd).2
          (fun y hy => by rw [incomingStep_length]; exact hvalid y (by simp [hy]))
          a haT]
      rw [incomingStep_untouched allF0 h x a hxa,
        incomingOf_congr _ h allF0 _ (fun b => incomingStep_coreOf allF0 h x b)]

/-!
## The complexity pass
-/


theorem complexityStep_coreOf (allF0 : List Nat) (h : Heap) (x b : Nat) :
    coreOf (heapGet (complexityStep allF0 h x) b) = coreOf (heapGet h b) := by
  unfold complexityStep
  rw [heapGet_heapSet]
  split
  · next hc => rw [hc.1]; rfl
  · rfl

theorem complexityStep_length (allF0 : List Nat) (h : Heap) (x : Nat) :
    (complexityStep allF0 h x).length = h.length := by
  unfold complexityStep
  exact heapSet_length _ _ _

theorem complexityStep_untouched (allF0 : List Nat) (h : Heap) (x a : Nat)
    (hxa : x ≠ a) : heapGet (complexityStep allF0 h x) a = heapGet h a := by
  unfold complexityStep
  exact heapGet_heapSet_ne _ _ _ _ hxa

theorem setComplexities_coreOf (allF0 : List Nat) (as : List Nat) :
    ∀ (h : Heap) (b : Nat),
      coreOf (heapGet (as.foldl (complexityStep allF0) h) b) = coreOf (heapGet h b) := by
  induction as with
  | nil => intro h b; rfl
  | cons x T ih =>
    intro h b
    rw [List.foldl_cons, ih, complexityStep_coreOf]

theorem setComplexities_length (allF0 : List Nat) (as : List Nat) :
    ∀ h : Heap, (as.foldl (complexityStep allF0) h).length = h.length := by
  induction as with
  | nil => intro h; rfl
  | cons x T ih =>
    intro h
    rw [List.foldl_cons, ih, complexityStep_length]

theorem setComplexities_untouched (allF0 : List Nat) (as : List Nat) :
    ∀ (h : Heap) (a : Nat), a ∉ as →
      heapGet (as.foldl (complexityStep allF0) h) a = heapGet h a := by
  induction as with
  | nil => intro h a _; rfl
  | cons x T ih =>
    intro h a ha
    rw [List.foldl_cons, ih _ a (fun hmem => ha (by simp [hmem])),
      complexityStep_untouched allF0 h x a (fun hxa => ha (by simp [hxa]))]

theorem totalCyclomaticOf_congr (h1 h2 : Heap) (allF : List Nat)
    (fd : FunctionRecord)
    (hc : ∀ b, coreOf (heapGet h1 b) = coreOf (heapGet h2 b)) :
    totalCyclomaticOf h1 allF fd = totalCyclomaticOf h2 allF fd := by
  unfold totalCyclomaticOf
  apply foldl_congr_mem
  intro acc b _
  rw [functionName_of_baseOf (baseOf_of_coreOf (hc b)),
    cyclomatic_of_baseOf (baseOf_of_coreOf (hc b))]

theorem totalNewComplexityOf_congr (h1 h2 : Heap) (allF : List Nat)
    (fd : FunctionRecord)
    (hc : ∀ b, coreOf (heapGet h1 b) = coreOf (heapGet h2 b)) :
    totalNewComplexityOf h1 allF fd = totalNewComplexityOf h2 allF fd := by
  unfold totalNewComplexityOf
  apply foldl_congr_mem
  intro acc b _
  rw [functionName_of_baseOf (baseOf_of_coreOf (hc b)),
    cyclomatic_of_baseOf (baseOf_of_coreOf (hc b)),
    hitcount_of_coreOf (hc b)]

theorem nucOf_congr (h1 h2 : Heap) (allF : List Nat) (fd : FunctionRecord)
    (hc : ∀ b, coreOf (heapGet h1 b) = coreOf (heapGet h2 b)) :
    nucOf h1 allF fd = nucOf h2 allF fd := by
  unfold nucOf
  rw [totalNewComplexityOf_congr h1 h2 allF fd hc]

/-- What the complexity pass writes at each address of its iteration list:
the two complexity figures, computed over the heap as it stood when the
pass started (the pass reads only fields it never writes, so the evolving
heap and the starting heap agree on everything the figures depend on). -/
theorem setComplexities_spec (allF0 : List Nat) (as : List Nat) :
    ∀ h : Heap, as.Nodup → (∀ x ∈ as, x < h.length) → ∀ a ∈ as,
      heapGet (as.foldl (complexityStep allF0) h) a =
        { heapGet h a with
          new_unreached_complexity := nucOf h allF0 (heapGet h a)
          total_cyclomatic_complexity :=
            totalCyclomaticOf h allF0 (heapGet h a) + (heapGet h a).CyclomaticComplexity } := by
  induction as with
  | nil => intro h _ _ a ha; cases ha
  | cons x T ih =>
    intro h hnd hvalid a ha
    rw [List.foldl_cons]
    rcases List.mem_cons.mp ha with hax | haT
    · subst hax
      have hnotT : a ∉ T := (List.nodup_cons.mp hnd).1
      rw [setComplexities_untouched allF0 T _ a hnotT]
      unfold complexityStep
      rw [heapGet_heapSet_self _ _ _ (hvalid a (by simp))]
    · have hxa : x ≠ a := fun hxa => (List.nodup_cons.mp hnd).1 (hxa ▸ haT)
      rw [ih _ (List.nodup_cons.mp hnd).2
          (fun y hy => by rw [complexityStep_length]; exact hvalid y (by simp [hy]))
          a haT]
      rw [complexityStep_untouched allF0 h x a hxa,
        nucOf_congr _ h allF0 _ (fun b => complexityStep_coreOf allF0 h x b),
        totalCyclomaticOf_congr _ h allF0 _ (fun b => complexityStep_coreOf allF0 h x b)]

/-!
## The hit count update pass of the clone
-/


theorem hitUpdateStep_baseOf (f : FunctionRecord) (h : Heap) (x b : Nat) :
    baseOf (heapGet (hitUpdateStep f h x) b) = baseOf (heapGet h b) := by
  unfold hitUpdateStep
  rw [heapGet_heapSet]
  split
  · next hc =>
    rw [hc.1]
    split
    · split
      · rfl
      · rfl
    · split
      · rfl
      · rfl
  · rfl

theorem hitUpdateStep_length (f : FunctionRecord) (h : Heap) (x : Nat) :
    (hitUpdateStep f h x).length = h.length := by
  unfold hitUpdateStep
  exact heapSet_length _ _ _

theorem hitUpdateStep_untouched (f : FunctionRecord) (h : Heap) (x a : Nat)
    (hxa : x ≠ a) : heapGet (hitUpdateStep f h x) a = heapGet h a := by
  unfold hitUpdateStep
  exact heapGet_heapSet_ne _ _ _ _ hxa

/-- The hit count update only ever writes the value one, so a record that is
unhit afterwards was already unhit before. -/
theorem hitUpdateStep_zero (f : FunctionRecord) (h : Heap) (x b : Nat)
    (hz : (heapGet (hitUpdateStep f h x) b).hitcount = 0) :
    (heapGet h b).hitcount = 0 := by
  by_cases hxb : x = b
  · subst hxb
    unfold hitUpdateStep at hz
    rw [heapGet_heapSet] at hz
    revert hz
    split
    · split
      · split
        · intro hz; cases hz
        · intro hz; cases hz
      · split
        · intro hz; cases hz
        · intro hz; exact hz
    · intro hz; exact hz
  · rwa [hitUpdateStep_untouched f h x b hxb] at hz

theorem updateHitcounts_baseOf (f : FunctionRecord) (as : List Nat) :
    ∀ (h : Heap) (b : Nat),
      baseOf (heapGet (updateHitcounts f h as) b) = baseOf (heapGet h b) := by
  unfold updateHitcounts
  induction as with
  | nil => intro h b; rfl
  | cons x T ih =>
    intro h b
    rw [List.foldl_cons, ih, hitUpdateStep_baseOf]

theorem updateHitcounts_length (f : FunctionRecord) (as : List Nat) :
    ∀ h : Heap, (updateHitcounts f h as).length = h.length := by
  unfold updateHitcounts
  induction as with
  | nil => intro h; rfl
  | cons x T ih =>
    intro h
    rw [List.foldl_cons, ih, hitUpdateStep_length]

theorem updateHitcounts_zero (f : FunctionRecord) (as : List Nat) :
    ∀ (h : Heap) (b : Nat),
      (heapGet (updateHitcounts f h as) b).hitcount = 0 →
        (heapGet h b).hitcount = 0 := by
  unfold updateHitcounts
  induction as with
  | nil => intro h b hz; exact hz
  | cons x T ih =>
    intro h b hz
    rw [List.foldl_cons] at hz
    exact hitUpdateStep_zero f h x b (ih _ b hz)

/-!
## Membership and counting utilities
-/


theorem mem_foldl_insert (l : List PyStr) :
    ∀ (s : Finset PyStr) (n : PyStr),
      n ∈ l.foldl (fun s x => insert x s) s ↔ n ∈ s ∨ n ∈ l := by
  induction l with
  | nil => intro s n; simp
  | cons x T ih =>
    intro s n
    rw [List.foldl_cons, ih]
    simp only [Finset.mem_insert, List.mem_cons]
    tauto

theorem mem_mergedFunctionsReached (profiles : List FuzzerProfile) (n : PyStr) :
    n ∈ mergedFunctionsReached profiles ↔
      ∃ p ∈ profiles, n ∈ p.funcsReachedByFuzzer := by
  unfold mergedFunctionsReached
  have main : ∀ (ps : List FuzzerProfile) (s : Finset PyStr),
      n ∈ ps.foldl (fun s p => p.funcsReachedByFuzzer.foldl (fun s n => insert n s) s) s ↔
        n ∈ s ∨ ∃ p ∈ ps, n ∈ p.funcsReachedByFuzzer := by
    intro ps
    induction ps with
    | nil => intro s; simp
    | cons p T ih =>
      intro s
      rw [List.foldl_cons, ih, mem_foldl_insert]
      simp only [List.mem_cons]
      constructor
      · rintro ((h | h) | ⟨q, hq, hn⟩)
        · exact Or.inl h
        · exact Or.inr ⟨p, Or.inl rfl, h⟩
        · exact Or.inr ⟨q, Or.inr hq, hn⟩
      · rintro (h | ⟨q, hq | hq, hn⟩)
        · exact Or.inl (Or.inl h)
        · exact Or.inl (Or.inr (hq ▸ hn))
        · exact Or.inr ⟨q, hq, hn⟩
  rw [main]
  simp

theorem hitcountOf_pos_iff (profiles : List FuzzerProfile) (n : PyStr) :
    hitcountOf profiles n ≠ 0 ↔ n ∈ mergedFunctionsReached profiles := by
  unfold hitcountOf
  rw [mem_mergedFunctionsReached]
  rw [← Nat.pos_iff_ne_zero, List.countP_pos_iff]
  constructor
  · rintro ⟨p, hp, hc⟩
    exact ⟨p, hp, by simpa [List.contains] using hc⟩
  · rintro ⟨p, hp, hc⟩
    exact ⟨p, hp, by simpa [List.contains] using hc⟩

/-- Counting the members of a finite set along a duplicate free list that
covers it counts every member exactly once. -/
theorem countP_mem_card (ns : List PyStr) (S : Finset PyStr) (hnd : ns.Nodup)
    (hsub : ∀ x ∈ S, x ∈ ns) :
    ns.countP (fun n => decide (n ∈ S)) = S.card := by
  rw [List.countP_eq_length_filter]
  have hfn : (ns.filter (fun n => decide (n ∈ S))).toFinset = S := by
    apply Finset.ext
    intro x
    rw [List.mem_toFinset, List.mem_filter]
    constructor
    · rintro ⟨_, hx⟩
      simpa using hx
    · intro hx
      exact ⟨hsub x hx, by simpa using hx⟩
  have hndf : (ns.filter (fun n => decide (n ∈ S))).Nodup := List.Nodup.filter _ hnd
  rw [← List.toFinset_card_of_nodup hndf, hfn]

/-!
## Well formed profile stores and the facts the merge establishes

In Python every function record is its own dictionary object: distinct
profile entries are distinct objects.  `ProfilesWF` states the heap level
counterpart: the profile address lists mention pairwise distinct, in bounds
heap cells.
-/


theorem init_def (h : Heap) (profiles : List FuzzerProfile) :
    MergedProjectProfile.init h profiles =
      (setComplexities
          (setIncomingReferences (gatherFunctions profiles h).1
            (gatherFunctions profiles h).2)
          (gatherFunctions profiles h).2,
        { profiles := profiles
          all_functions := (gatherFunctions profiles h).2
          functions_reached := mergedFunctionsReached profiles
          unreached_functions :=
            mergedUnreachedFunctions profiles (mergedFunctionsReached profiles) }) :=
  rfl

theorem gatherFunctions_allF (profiles : List FuzzerProfile) (h : Heap) :
    (gatherFunctions profiles h).2 =
      pureGatherAux (fun b => (heapGet h b).functionName) (profileAddrs profiles) [] := by
  unfold gatherFunctions
  exact gatherFold_allF profiles _ h [] _ (fun b => rfl)

theorem init_allF_sub (h : Heap) (profiles : List FuzzerProfile) :
    ∀ a ∈ (MergedProjectProfile.init h profiles).2.all_functions,
      a ∈ profileAddrs profiles := by
  intro a ha
  rw [init_def] at ha
  simp only at ha
  rw [gatherFunctions_allF] at ha
  rcases pureGatherAux_mem _ _ [] a ha with hc | hc
  · cases hc
  · exact hc

theorem init_allF_namesNodup (h : Heap) (profiles : List FuzzerProfile) :
    (((MergedProjectProfile.init h profiles).2.all_functions).map
      (fun b => (heapGet h b).functionName)).Nodup := by
  rw [init_def]
  simp only
  rw [gatherFunctions_allF]
  exact pureGatherAux_namesNodup _ _ [] (by simp)

theorem init_allF_nodup (h : Heap) (profiles : List FuzzerProfile) :
    (MergedProjectProfile.init h profiles).2.all_functions.Nodup :=
  List.Nodup.of_map _ (init_allF_namesNodup h profiles)

theorem init_allF_noskip (h : Heap) (profiles : List FuzzerProfile) :
    ∀ a ∈ (MergedProjectProfile.init h profiles).2.all_functions,
      ¬sanitizerOrLLVM ((heapGet h a).functionName) = true := by
  intro a ha
  rw [init_def] at ha
  simp only at ha
  rw [gatherFunctions_allF] at ha
  exact pureGatherAux_noskip _ _ [] (by simp) a ha

theorem init_allF_cover (h : Heap) (profiles : List FuzzerProfile) :
    ∀ a ∈ profileAddrs profiles,
      ¬sanitizerOrLLVM ((heapGet h a).functionName) = true →
        (heapGet h a).functionName ∈
          ((MergedProjectProfile.init h profiles).2.all_functions).map
            (fun b => (heapGet h b).functionName) := by
  intro a ha hskip
  rw [init_def]
  simp only
  rw [gatherFunctions_allF]
  exact pureGatherAux_cover _ _ [] a ha hskip

theorem init_heap_length (h : Heap) (profiles : List FuzzerProfile) :
    (MergedProjectProfile.init h profiles).1.length = h.length := by
  rw [init_def]
  simp only
  unfold setComplexities setIncomingReferences gatherFunctions
  rw [setComplexities_length, incomingFold_length, gatherFold_length]

theorem init_baseOf (h : Heap) (profiles : List FuzzerProfile) (b : Nat) :
    baseOf (heapGet (MergedProjectProfile.init h profiles).1 b) =
      baseOf (heapGet h b) := by
  rw [init_def]
  simp only
  unfold setComplexities setIncomingReferences gatherFunctions
  rw [baseOf_of_coreOf (setComplexities_coreOf _ _ _ b),
    baseOf_of_coreOf (incomingFold_coreOf _ _ _ b)]
  exact gatherFold_baseOf profiles _ _ b

/-- After the merge, the hit count of every record mentioned by some
profile and not excluded by the sanitizer or llvm test equals the number of
profiles reaching its name: the gathering loop writes it (duplicates
included) and the later passes leave it alone. -/
theorem init_hit (h : Heap) (profiles : List FuzzerProfile)
    (hwf : ProfilesWF h profiles) :
    ∀ a ∈ profileAddrs profiles,
      ¬sanitizerOrLLVM ((heapGet h a).functionName) = true →
        (heapGet (MergedProjectProfile.init h profiles).1 a).hitcount =
          hitcountOf profiles ((heapGet h a).functionName) := by
  intro a ha hskip
  rw [init_def]
  simp only
  unfold setComplexities setIncomingReferences gatherFunctions
  rw [hitcount_of_coreOf (setComplexities_coreOf _ _ _ a),
    hitcount_of_coreOf (incomingFold_coreOf _ _ _ a)]
  have := gatherFold_hit profiles (profileAddrs profiles) (h, []) hwf.1 hwf.2 a ha
  rw [this, if_neg hskip]

theorem totalCyclomaticOf_fdCongr (h : Heap) (allF : List Nat)
    {fd fd' : FunctionRecord} (hb : baseOf fd = baseOf fd') :
    totalCyclomaticOf h allF fd = totalCyclomaticOf h allF fd' := by
  unfold totalCyclomaticOf
  rw [reached_of_baseOf hb]

theorem totalNewComplexityOf_fdCongr (h : Heap) (allF : List Nat)
    {fd fd' : FunctionRecord} (hb : baseOf fd = baseOf fd') :
    totalNewComplexityOf h allF fd = totalNewComplexityOf h allF fd' := by
  unfold totalNewComplexityOf
  rw [reached_of_baseOf hb]

theorem nucOf_fdCongr (h : Heap) (allF : List Nat)
    {fd fd' : FunctionRecord} (hc : coreOf fd = coreOf fd') :
    nucOf h allF fd = nucOf h allF fd' := by
  unfold nucOf
  rw [totalNewComplexityOf_fdCongr h allF (baseOf_of_coreOf hc),
    hitcount_of_coreOf hc, cyclomatic_of_baseOf (baseOf_of_coreOf hc)]

theorem incomingOf_fdCongr (h : Heap) (allF : List Nat)
    {fd fd' : FunctionRecord} (hn : fd.functionName = fd'.functionName) :
    incomingOf h allF fd = incomingOf h allF fd' := by
  unfold incomingOf
  rw [hn]

/-- After the merge, every retained record carries exactly the
`new_unreached_complexity` figure recomputable from the final heap. -/
theorem init_nuc_final (h : Heap) (profiles : List FuzzerProfile)
    (hwf : ProfilesWF h profiles) :
    ∀ a ∈ (MergedProjectProfile.init h profiles).2.all_functions,
      (heapGet (MergedProjectProfile.init h profiles).1 a).new_unreached_complexity =
        nucOf (MergedProjectProfile.init h profiles).1
          (MergedProjectProfile.init h profiles).2.all_functions
          (heapGet (MergedProjectProfile.init h profiles).1 a) := by
  intro a ha
  have hnd := init_allF_nodup h profiles
  have hsub := init_allF_sub h profiles
  rw [init_def] at ha hnd hsub ⊢
  simp only at ha hnd hsub ⊢
  have hlen2 :
      (setIncomingReferences (gatherFunctions profiles h).1
        (gatherFunctions profiles h).2).length = h.length := by
    unfold setIncomingReferences gatherFunctions
    rw [incomingFold_length, gatherFold_length]
  have hvalid : ∀ x ∈ (gatherFunctions profiles h).2,
      x < (setIncomingReferences (gatherFunctions profiles h).1
        (gatherFunctions profiles h).2).length := by
    intro x hx
    rw [hlen2]
    exact hwf.2 x (hsub x hx)
  have hspec :=
    setComplexities_spec (gatherFunctions profiles h).2 (gatherFunctions profiles h).2
      _ hnd hvalid a ha
  unfold setComplexities at hspec ⊢
  rw [hspec]
  rw [nucOf_congr _
      (setIncomingReferences (gatherFunctions profiles h).1 (gatherFunctions profiles h).2)
      _ _ (fun b => setComplexities_coreOf _ _ _ b)]
  exact (nucOf_fdCongr _ _ rfl)

/-- After the merge, every retained record carries exactly the
`total_cyclomatic_complexity` figure recomputable from the final heap. -/
theorem init_tcc_final (h : Heap) (profiles : List FuzzerProfile)
    (hwf : ProfilesWF h profiles) :
    ∀ a ∈ (MergedProjectProfile.init h profiles).2.all_functions,
      (heapGet (MergedProjectProfile.init h profiles).1 a).total_cyclomatic_complexity =
        totalCyclomaticOf (MergedProjectProfile.init h profiles).1
            (MergedProjectProfile.init h profiles).2.all_functions
            (heapGet (MergedProjectProfile.init h profiles).1 a) +
          (heapGet (MergedProjectProfile.init h profiles).1 a).CyclomaticComplexity := by
  intro a ha
  have hnd := init_allF_nodup h profiles
  have hsub := init_allF_sub h profiles
  rw [init_def] at ha hnd hsub ⊢
  simp only at ha hnd hsub ⊢
  have hlen2 :
      (setIncomingReferences (gatherFunctions profiles h).1
        (gatherFunctions profiles h).2).length = h.length := by
    unfold setIncomingReferences gatherFunctions
    rw [incomingFold_length, gatherFold_length]
  have hvalid : ∀ x ∈ (gatherFunctions profiles h).2,
      x < (setIncomingReferences (gatherFunctions profiles h).1
        (gatherFunctions profiles h).2).length := by
    intro x hx
    rw [hlen2]
    exact hwf.2 x (hsub x hx)
  have hspec :=
    setComplexities_spec (gatherFunctions profiles h).2 (gatherFunctions profiles h).2
      _ hnd hvalid a ha
  unfold setComplexities at hspec ⊢
  rw [hspec]
  rw [totalCyclomaticOf_congr _
      (setIncomingReferences (gatherFunctions profiles h).1 (gatherFunctions profiles h).2)
      _ _ (fun b => setComplexities_coreOf _ _ _ b)]
  exact congrArg (fun t => t + _) (totalCyclomaticOf_fdCongr _ _ rfl)

theorem setIncomingReferences_length (h1 : Heap) (allF : List Nat) :
    (setIncomingReferences h1 allF).length = h1.length := by
  unfold setIncomingReferences
  rw [incomingFold_length]

theorem setIncomingReferences_coreOf (h1 : Heap) (allF : List Nat) (b : Nat) :
    coreOf (heapGet (setIncomingReferences h1 allF) b) = coreOf (heapGet h1 b) := by
  unfold setIncomingReferences
  rw [incomingFold_coreOf]

theorem setComplexities_wrapper_coreOf (h2 : Heap) (allF : List Nat) (b : Nat) :
    coreOf (heapGet (setComplexities h2 allF) b) = coreOf (heapGet h2 b) := by
  unfold setComplexities
  rw [setComplexities_coreOf]

/-- The incoming reference list every retained record carries after the
incoming pass followed by the complexity pass, recomputable from the final
heap (the complexity pass does not touch the field, and neither pass touches
the fields the recomputation reads). -/
theorem passes_incoming_final (h1 : Heap) (allF : List Nat) (hnd : allF.Nodup)
    (hvalid : ∀ x ∈ allF, x < h1.length) :
    ∀ a ∈ allF,
      (heapGet (setComplexities (setIncomingReferences h1 allF) allF) a).incoming_references =
        incomingOf (setComplexities (setIncomingReferences h1 allF) allF) allF
          (heapGet (setComplexities (setIncomingReferences h1 allF) allF) a) := by
  intro a ha
  have hvalid2 : ∀ x ∈ allF, x < (setIncomingReferences h1 allF).length := by
    intro x hx
    rw [setIncomingReferences_length]
    exact hvalid x hx
  have hspec : heapGet (setComplexities (setIncomingReferences h1 allF) allF) a =
      { heapGet (setIncomingReferences h1 allF) a with
        new_unreached_complexity :=
          nucOf (setIncomingReferences h1 allF) allF
            (heapGet (setIncomingReferences h1 allF) a)
        total_cyclomatic_complexity :=
          totalCyclomaticOf (setIncomingReferences h1 allF) allF
              (heapGet (setIncomingReferences h1 allF) a) +
            (heapGet (setIncomingReferences h1 allF) a).CyclomaticComplexity } := by
    unfold setComplexities
    exact setComplexities_spec allF allF _ hnd hvalid2 a ha
  have hspec1 : heapGet (setIncomingReferences h1 allF) a =
      { heapGet h1 a with
        incoming_references := incomingOf h1 allF (heapGet h1 a) } := by
    unfold setIncomingReferences
    exact incomingFold_spec allF allF h1 hnd hvalid a ha
  have hL : (heapGet (setComplexities (setIncomingReferences h1 allF) allF) a).incoming_references =
      incomingOf h1 allF (heapGet h1 a) := by
    rw [hspec, hspec1]
  rw [hL]
  have hname : (heapGet h1 a).functionName =
      (heapGet (setComplexities (setIncomingReferences h1 allF) allF) a).functionName := by
    have c1 := setComplexities_wrapper_coreOf (setIncomingReferences h1 allF) allF a
    have c2 := setIncomingReferences_coreOf h1 allF a
    exact (functionName_of_baseOf (baseOf_of_coreOf (c1.trans c2))).symm
  rw [incomingOf_fdCongr h1 allF hname]
  apply incomingOf_congr
  intro b
  exact ((setComplexities_wrapper_coreOf _ allF b).trans
    (setIncomingReferences_coreOf h1 allF b)).symm

/-- After the merge, every retained record carries exactly the incoming
reference list recomputable from the final heap. -/
theorem init_incoming_final (h : Heap) (profiles : List FuzzerProfile)
    (hwf : ProfilesWF h profiles) :
    ∀ a ∈ (MergedProjectProfile.init h profiles).2.all_functions,
      (heapGet (MergedProjectProfile.init h profiles).1 a).incoming_references =
        incomingOf (MergedProjectProfile.init h profiles).1
          (MergedProjectProfile.init h profiles).2.all_functions
          (heapGet (MergedProjectProfile.init h profiles).1 a) := by
  have hnd := init_allF_nodup h profiles
  have hsub := init_allF_sub h profiles
  rw [init_def] at hnd hsub ⊢
  simp only at hnd hsub ⊢
  have hvalid : ∀ x ∈ (gatherFunctions profiles h).2,
      x < (gatherFunctions profiles h).1.length := by
    intro x hx
    unfold gatherFunctions
    rw [gatherFold_length]
    exact hwf.2 x (hsub x hx)
  exact passes_incoming_final (gatherFunctions profiles h).1 (gatherFunctions profiles h).2
    hnd hvalid

/-!
## Deep copy lemmas
-/


theorem deepcopy_def (h : Heap) (mp : MergedProjectProfile) :
    deepcopyMerged h mp =
      (h ++ (cloneAddrs mp).map
          (fun a => copyRecord (cloneAddrs mp) h.length (heapGet h a)),
        { profiles :=
            mp.profiles.map
              (fun p =>
                { p with all_function_data :=
                    p.all_function_data.map (remapAddr (cloneAddrs mp) h.length) })
          all_functions := mp.all_functions.map (remapAddr (cloneAddrs mp) h.length)
          functions_reached := mp.functions_reached
          unreached_functions := mp.unreached_functions }) :=
  rfl

theorem mem_cloneAddrs_of_allF (mp : MergedProjectProfile) :
    ∀ x ∈ mp.all_functions, x ∈ cloneAddrs mp := by
  intro x hx
  unfold cloneAddrs
  rw [List.mem_dedup, List.mem_append]
  exact Or.inr hx

theorem mem_cloneAddrs_of_profiles (mp : MergedProjectProfile) :
    ∀ p ∈ mp.profiles, ∀ x ∈ p.all_function_data, x ∈ cloneAddrs mp := by
  intro p hp x hx
  unfold cloneAddrs
  rw [List.mem_dedup, List.mem_append]
  exact Or.inl (List.mem_flatMap.mpr ⟨p, hp, hx⟩)

theorem remapAddr_ge (addrs : List Nat) (base : Nat) {a : Nat} (ha : a ∈ addrs) :
    base ≤ remapAddr addrs base a := by
  unfold remapAddr
  rw [if_pos ha]
  exact Nat.le_add_right base _

theorem remapAddr_lt (addrs : List Nat) (base : Nat) {a : Nat} (ha : a ∈ addrs) :
    remapAddr addrs base a < base + addrs.length := by
  unfold remapAddr
  rw [if_pos ha]
  exact Nat.add_lt_add_left (List.indexOf_lt_length.mpr ha) base

theorem remapAddr_inj (addrs : List Nat) (base : Nat) {a b : Nat}
    (ha : a ∈ addrs) (hb : b ∈ addrs)
    (heq : remapAddr addrs base a = remapAddr addrs base b) : a = b := by
  unfold remapAddr at heq
  rw [if_pos ha, if_pos hb] at heq
  exact (List.indexOf_inj ha hb).mp (Nat.add_left_cancel heq)

/-- The heap prefix is untouched by the deep copy allocation. -/
theorem deepcopy_old_cells (h : Heap) (mp : MergedProjectProfile) {b : Nat}
    (hb : b < h.length) :
    heapGet (deepcopyMerged h mp).1 b = heapGet h b := by
  rw [deepcopy_def]
  unfold heapGet
  exact List.getD_append _ _ _ b hb

theorem deepcopy_length (h : Heap) (mp : MergedProjectProfile) :
    (deepcopyMerged h mp).1.length = h.length + (cloneAddrs mp).length := by
  rw [deepcopy_def]
  simp only
  rw [List.length_append, List.length_map]

/-- The fresh cell allocated for a copied address holds the copy of the
record at that address. -/
theorem deepcopy_cell (h : Heap) (mp : MergedProjectProfile) {a : Nat}
    (ha : a ∈ cloneAddrs mp) :
    heapGet (deepcopyMerged h mp).1 (remapAddr (cloneAddrs mp) h.length a) =
      copyRecord (cloneAddrs mp) h.length (heapGet h a) := by
  rw [deepcopy_def]
  unfold heapGet remapAddr
  rw [if_pos ha]
  have hidx : (cloneAddrs mp).indexOf a < (cloneAddrs mp).length :=
    List.indexOf_lt_length.mpr ha
  rw [List.getD_eq_getElem?_getD, List.getElem?_append_right (Nat.le_add_right _ _),
    Nat.add_sub_cancel_left, List.getElem?_map,
    List.getElem?_eq_getElem hidx]
  rw [List.getElem_indexOf hidx]
  rfl

theorem copyRecord_coreOf (addrs : List Nat) (base : Nat) (r : FunctionRecord) :
    coreOf (copyRecord addrs base r) = coreOf r :=
  rfl

theorem copyRecord_nuc (addrs : List Nat) (base : Nat) (r : FunctionRecord) :
    (copyRecord addrs base r).new_unreached_complexity = r.new_unreached_complexity :=
  rfl

/-!
## The clone operation, assembled
-/


theorem add_func_def (h : Heap) (mp : MergedProjectProfile) (f : FunctionRecord) :
    add_func_to_reached_and_clone h mp f =
      (setComplexities
          (updateHitcounts f (deepcopyMerged h mp).1 (deepcopyMerged h mp).2.all_functions)
          (deepcopyMerged h mp).2.all_functions,
        (deepcopyMerged h mp).2) :=
  rfl

theorem updateHitcounts_untouched (f : FunctionRecord) (as : List Nat) :
    ∀ (h : Heap) (b : Nat), b ∉ as →
      heapGet (updateHitcounts f h as) b = heapGet h b := by
  unfold updateHitcounts
  induction as with
  | nil => intro h b _; rfl
  | cons x T ih =>
    intro h b hb
    rw [List.foldl_cons, ih _ b (fun hmem => hb (by simp [hmem])),
      hitUpdateStep_untouched f h x b (fun hxb => hb (by simp [hxb]))]

theorem setComplexities_wrapper_untouched (allF : List Nat) (h : Heap) (b : Nat)
    (hb : b ∉ allF) : heapGet (setComplexities h allF) b = heapGet h b := by
  unfold setComplexities
  exact setComplexities_untouched allF allF h b hb

theorem setComplexities_wrapper_length (h : Heap) (allF : List Nat) :
    (setComplexities h allF).length = h.length := by
  unfold setComplexities
  rw [setComplexities_length]

/-- Every record address of the clone lies at or above the old heap length:
the deep copy allocates only fresh cells. -/
theorem clone_addrs_fresh (h : Heap) (mp : MergedProjectProfile) :
    (∀ x ∈ (deepcopyMerged h mp).2.all_functions, h.length ≤ x) ∧
      ∀ p ∈ (deepcopyMerged h mp).2.profiles, ∀ x ∈ p.all_function_data, h.length ≤ x := by
  rw [deepcopy_def]
  constructor
  · intro x hx
    rcases List.mem_map.mp hx with ⟨a, ha, rfl⟩
    exact remapAddr_ge _ _ (mem_cloneAddrs_of_allF mp a ha)
  · intro p hp x hx
    rcases List.mem_map.mp hp with ⟨q, hq, rfl⟩
    rcases List.mem_map.mp hx with ⟨a, ha, rfl⟩
    exact remapAddr_ge _ _ (mem_cloneAddrs_of_profiles mp q hq a ha)

/-- The whole clone operation leaves every cell of the old heap alone: the
deep copy only appends, and the two update loops only write clone cells. -/
theorem add_func_frame (h : Heap) (mp : MergedProjectProfile) (f : FunctionRecord)
    {b : Nat} (hb : b < h.length) :
    heapGet (add_func_to_reached_and_clone h mp f).1 b = heapGet h b := by
  rw [add_func_def]
  have hnot : b ∉ (deepcopyMerged h mp).2.all_functions := by
    intro hmem
    exact absurd ((clone_addrs_fresh h mp).1 b hmem) (Nat.not_le_of_lt hb)
  rw [setComplexities_wrapper_untouched _ _ b hnot,
    updateHitcounts_untouched _ _ _ b hnot,
    deepcopy_old_cells h mp hb]

theorem add_func_all_functions (h : Heap) (mp : MergedProjectProfile)
    (f : FunctionRecord) :
    (add_func_to_reached_and_clone h mp f).2.all_functions =
      mp.all_functions.map (remapAddr (cloneAddrs mp) h.length) := by
  rw [add_func_def, deepcopy_def]

theorem add_func_allF_nodup (h : Heap) (mp : MergedProjectProfile)
    (f : FunctionRecord) (hnd : mp.all_functions.Nodup) :
    (add_func_to_reached_and_clone h mp f).2.all_functions.Nodup := by
  rw [add_func_all_functions]
  apply List.Nodup.map_on ?_ hnd
  intro x hx y hy heq
  exact remapAddr_inj _ _ (mem_cloneAddrs_of_allF mp x hx)
    (mem_cloneAddrs_of_allF mp y hy) heq

theorem add_func_heap_length (h : Heap) (mp : MergedProjectProfile)
    (f : FunctionRecord) :
    (add_func_to_reached_and_clone h mp f).1.length =
      h.length + (cloneAddrs mp).length := by
  rw [add_func_def]
  rw [setComplexities_wrapper_length, updateHitcounts_length, deepcopy_length]

theorem add_func_allF_valid (h : Heap) (mp : MergedProjectProfile)
    (f : FunctionRecord) :
    ∀ x ∈ (add_func_to_reached_and_clone h mp f).2.all_functions,
      x < (add_func_to_reached_and_clone h mp f).1.length := by
  intro x hx
  rw [add_func_all_functions] at hx
  rcases List.mem_map.mp hx with ⟨a, ha, rfl⟩
  rw [add_func_heap_length]
  exact remapAddr_lt _ _ (mem_cloneAddrs_of_allF mp a ha)

/-!
## Monotonicity of the new unreached complexity
-/


theorem sum_filter_mono (L : List Nat) (p q : Nat → Bool) (f : Nat → Int)
    (hf : ∀ b ∈ L, 0 ≤ f b) (hpq : ∀ b ∈ L, q b = true → p b = true) :
    ((L.filter q).map f).sum ≤ ((L.filter p).map f).sum := by
  induction L with
  | nil => simp
  | cons x T ih =>
    have hfT : ∀ b ∈ T, 0 ≤ f b := fun b hb => hf b (by simp [hb])
    have hpqT : ∀ b ∈ T, q b = true → p b = true := fun b hb => hpq b (by simp [hb])
    simp only [List.filter_cons]
    by_cases hq : q x = true
    · rw [if_pos hq, if_pos (hpq x (by simp) hq)]
      simp only [List.map_cons, List.sum_cons]
      exact add_le_add_left (ih hfT hpqT) _
    · rw [if_neg hq]
      by_cases hp : p x = true
      · rw [if_pos hp]
        simp only [List.map_cons, List.sum_cons]
        calc ((T.filter q).map f).sum ≤ ((T.filter p).map f).sum := ih hfT hpqT
          _ ≤ f x + ((T.filter p).map f).sum :=
            le_add_of_nonneg_left (hf x (by simp))
      · rw [if_neg hp]
        exact ih hfT hpqT

/-- If the hit counts can only move away from zero between two heaps that
agree on the static fields, the new complexity sum cannot grow. -/
theorem totalNewComplexityOf_le (h1 h2 : Heap) (allF : List Nat)
    (fd : FunctionRecord)
    (hbase : ∀ b, baseOf (heapGet h2 b) = baseOf (heapGet h1 b))
    (hzero : ∀ b, (heapGet h2 b).hitcount = 0 → (heapGet h1 b).hitcount = 0)
    (hcc : ∀ b, 0 ≤ (heapGet h1 b).CyclomaticComplexity) :
    totalNewComplexityOf h2 allF fd ≤ totalNewComplexityOf h1 allF fd := by
  unfold totalNewComplexityOf
  rw [foldl_if_sum, foldl_if_sum, zero_add, zero_add]
  have hccfun : ∀ b,
      (heapGet h2 b).CyclomaticComplexity = (heapGet h1 b).CyclomaticComplexity :=
    fun b => cyclomatic_of_baseOf (hbase b)
  have hmap :
      ((allF.filter
          (fun a2 => fd.functionsReached.contains (heapGet h2 a2).functionName
            && (heapGet h2 a2).hitcount == 0)).map
        (fun a2 => (heapGet h2 a2).CyclomaticComplexity)) =
      ((allF.filter
          (fun a2 => fd.functionsReached.contains (heapGet h2 a2).functionName
            && (heapGet h2 a2).hitcount == 0)).map
        (fun a2 => (heapGet h1 a2).CyclomaticComplexity)) :=
    List.map_congr_left (fun b _ => hccfun b)
  rw [hmap]
  apply sum_filter_mono
  · intro b _
    exact hcc b
  · intro b _ hq
    simp only [Bool.and_eq_true] at hq ⊢
    rcases hq with ⟨hq1, hq2⟩
    constructor
    · rw [← functionName_of_baseOf (hbase b)]
      exact hq1
    · rw [beq_iff_eq] at hq2 ⊢
      exact hzero b hq2

theorem nucOf_le (h1 h2 : Heap) (allF : List Nat) {fd1 fd2 : FunctionRecord}
    (hb : baseOf fd2 = baseOf fd1) (hz : fd2.hitcount = 0 → fd1.hitcount = 0)
    (hbase : ∀ b, baseOf (heapGet h2 b) = baseOf (heapGet h1 b))
    (hzero : ∀ b, (heapGet h2 b).hitcount = 0 → (heapGet h1 b).hitcount = 0)
    (hcc : ∀ b, 0 ≤ (heapGet h1 b).CyclomaticComplexity)
    (hccfd : 0 ≤ fd1.CyclomaticComplexity) :
    nucOf h2 allF fd2 ≤ nucOf h1 allF fd1 := by
  unfold nucOf
  have htn : totalNewComplexityOf h2 allF fd2 ≤ totalNewComplexityOf h1 allF fd1 := by
    rw [totalNewComplexityOf_fdCongr h2 allF hb]
    exact totalNewComplexityOf_le h1 h2 allF fd1 hbase hzero hcc
  have hcc2 : fd2.CyclomaticComplexity = fd1.CyclomaticComplexity :=
    cyclomatic_of_baseOf hb
  by_cases h2z : fd2.hitcount == 0
  · have h1z : fd1.hitcount == 0 := by
      rw [beq_iff_eq] at h2z ⊢
      exact hz h2z
    rw [if_pos h2z, if_pos h1z, hcc2]
    exact add_le_add_right htn _
  · rw [if_neg h2z]
    by_cases h1z : fd1.hitcount == 0
    · rw [if_pos h1z]
      exact le_trans htn (le_add_of_nonneg_right hccfd)
    · rw [if_neg h1z]
      exact htn

/-!
## Nonnegative complexity, preserved by every operation
-/


theorem ccNonneg_of_baseEq {h h2 : Heap}
    (hb : ∀ b, baseOf (heapGet h2 b) = baseOf (heapGet h b))
    (hcc : HeapCCNonneg h) : HeapCCNonneg h2 := by
  intro b
  rw [cyclomatic_of_baseOf (hb b)]
  exact hcc b

theorem ccNonneg_deepcopy (h : Heap) (mp : MergedProjectProfile)
    (hcc : HeapCCNonneg h) : HeapCCNonneg (deepcopyMerged h mp).1 := by
  intro b
  by_cases hb : b < h.length
  · rw [deepcopy_old_cells h mp hb]
    exact hcc b
  · rw [deepcopy_def]
    unfold heapGet
    rw [List.getD_eq_getElem?_getD,
      List.getElem?_append_right (Nat.le_of_not_lt hb), List.getElem?_map]
    rcases hm : (cloneAddrs mp)[b - h.length]? with _ | a
    · exact le_refl 0
    · exact hcc a

theorem updateHitcounts_baseEq (f : FunctionRecord) (h : Heap) (as : List Nat) :
    ∀ b, baseOf (heapGet (updateHitcounts f h as) b) = baseOf (heapGet h b) :=
  fun b => updateHitcounts_baseOf f as h b

theorem setComplexities_baseEq (h : Heap) (allF : List Nat) :
    ∀ b, baseOf (heapGet (setComplexities h allF) b) = baseOf (heapGet h b) :=
  fun b => baseOf_of_coreOf (setComplexities_wrapper_coreOf h allF b)

theorem ccNonneg_add_func (h : Heap) (mp : MergedProjectProfile)
    (f : FunctionRecord) (hcc : HeapCCNonneg h) :
    HeapCCNonneg (add_func_to_reached_and_clone h mp f).1 := by
  rw [add_func_def]
  apply ccNonneg_of_baseEq (setComplexities_baseEq _ _)
  apply ccNonneg_of_baseEq (updateHitcounts_baseEq _ _ _)
  exact ccNonneg_deepcopy h mp hcc

/-!
## The merged profile invariant
-/


/-- The complexity pass leaves every record consistent with the final
heap. -/
theorem setComplexities_nuc_final (h2 : Heap) (allF : List Nat)
    (hnd : allF.Nodup) (hvalid : ∀ x ∈ allF, x < h2.length) :
    ∀ a ∈ allF,
      (heapGet (setComplexities h2 allF) a).new_unreached_complexity =
        nucOf (setComplexities h2 allF) allF (heapGet (setComplexities h2 allF) a) := by
  intro a ha
  have hspec : heapGet (setComplexities h2 allF) a =
      { heapGet h2 a with
        new_unreached_complexity := nucOf h2 allF (heapGet h2 a)
        total_cyclomatic_complexity :=
          totalCyclomaticOf h2 allF (heapGet h2 a) +
            (heapGet h2 a).CyclomaticComplexity } := by
    unfold setComplexities
    exact setComplexities_spec allF allF h2 hnd hvalid a ha
  rw [hspec]
  rw [nucOf_congr _ h2 allF _ (fun b => setComplexities_wrapper_coreOf h2 allF b)]
  exact nucOf_fdCongr _ _ rfl

theorem init_inv (h : Heap) (profiles : List FuzzerProfile)
    (hwf : ProfilesWF h profiles) :
    MergedInv (MergedProjectProfile.init h profiles).1
      (MergedProjectProfile.init h profiles).2 :=
  ⟨init_allF_nodup h profiles, init_nuc_final h profiles hwf⟩

theorem add_func_inv (h : Heap) (mp : MergedProjectProfile) (f : FunctionRecord)
    (hinv : MergedInv h mp) :
    MergedInv (add_func_to_reached_and_clone h mp f).1
      (add_func_to_reached_and_clone h mp f).2 := by
  have hnd2 := add_func_allF_nodup h mp f hinv.1
  have hvalid2 := add_func_allF_valid h mp f
  refine ⟨hnd2, ?_⟩
  rw [add_func_def] at hnd2 hvalid2 ⊢
  have hval3 : ∀ x ∈ (deepcopyMerged h mp).2.all_functions,
      x < (updateHitcounts f (deepcopyMerged h mp).1
        (deepcopyMerged h mp).2.all_functions).length := by
    intro x hx
    have := hvalid2 x hx
    rwa [setComplexities_wrapper_length] at this
  exact setComplexities_nuc_final _ _ hnd2 hval3

/-- One clone application cannot increase the `new_unreached_complexity` of
any retained function: position by position, the figure in the clone is at
most the figure in the profile the clone was made from. -/
theorem add_func_mono (h : Heap) (mp : MergedProjectProfile) (f : FunctionRecord)
    (hinv : MergedInv h mp) (hcc : HeapCCNonneg h) :
    ∀ i < mp.all_functions.length,
      (heapGet (add_func_to_reached_and_clone h mp f).1
          ((add_func_to_reached_and_clone h mp f).2.all_functions.getD i 0)).new_unreached_complexity ≤
        (heapGet h (mp.all_functions.getD i 0)).new_unreached_complexity := by
  intro i hi
  have hi2 : i < (mp.all_functions.map (remapAddr (cloneAddrs mp) h.length)).length := by
    rw [List.length_map]
    exact hi
  have hgetD : mp.all_functions.getD i 0 = mp.all_functions[i] := by
    rw [List.getD_eq_getElem?_getD, List.getElem?_eq_getElem hi]
    rfl
  have hgetD2 :
      (add_func_to_reached_and_clone h mp f).2.all_functions.getD i 0 =
        remapAddr (cloneAddrs mp) h.length (mp.all_functions[i]) := by
    rw [add_func_all_functions, List.getD_eq_getElem?_getD,
      List.getElem?_eq_getElem hi2]
    simp only [Option.getD_some]
    exact List.getElem_map _
  rw [hgetD, hgetD2]
  have hamem : mp.all_functions[i] ∈ mp.all_functions := List.getElem_mem hi
  have haclone : mp.all_functions[i] ∈ cloneAddrs mp :=
    mem_cloneAddrs_of_allF mp _ hamem
  have hmem2 : remapAddr (cloneAddrs mp) h.length (mp.all_functions[i]) ∈
      (deepcopyMerged h mp).2.all_functions := by
    rw [deepcopy_def]
    exact List.mem_map_of_mem _ hamem
  have hnd2 : (deepcopyMerged h mp).2.all_functions.Nodup := by
    have := add_func_allF_nodup h mp f hinv.1
    rwa [add_func_def] at this
  have hvalid2 : ∀ x ∈ (deepcopyMerged h mp).2.all_functions,
      x < (updateHitcounts f (deepcopyMerged h mp).1
        (deepcopyMerged h mp).2.all_functions).length := by
    intro x hx
    have := add_func_allF_valid h mp f x (by rwa [add_func_def])
    rw [add_func_def, setComplexities_wrapper_length] at this
    exact this
  have hspec := setComplexities_spec (deepcopyMerged h mp).2.all_functions
    (deepcopyMerged h mp).2.all_functions
    (updateHitcounts f (deepcopyMerged h mp).1 (deepcopyMerged h mp).2.all_functions)
    hnd2 hvalid2 _ hmem2
  rw [add_func_def]
  unfold setComplexities
  rw [hspec]
  have hLHS :
      ({ heapGet (updateHitcounts f (deepcopyMerged h mp).1
            (deepcopyMerged h mp).2.all_functions)
            (remapAddr (cloneAddrs mp) h.length (mp.all_functions[i])) with
          new_unreached_complexity :=
            nucOf (updateHitcounts f (deepcopyMerged h mp).1
                (deepcopyMerged h mp).2.all_functions)
              (deepcopyMerged h mp).2.all_functions
              (heapGet (updateHitcounts f (deepcopyMerged h mp).1
                  (deepcopyMerged h mp).2.all_functions)
                (remapAddr (cloneAddrs mp) h.length (mp.all_functions[i])))
          total_cyclomatic_complexity :=
            totalCyclomaticOf (updateHitcounts f (deepcopyMerged h mp).1
                (deepcopyMerged h mp).2.all_functions)
              (deepcopyMerged h mp).2.all_functions
              (heapGet (updateHitcounts f (deepcopyMerged h mp).1
                  (deepcopyMerged h mp).2.all_functions)
                (remapAddr (cloneAddrs mp) h.length (mp.all_functions[i]))) +
              (heapGet (updateHitcounts f (deepcopyMerged h mp).1
                  (deepcopyMerged h mp).2.all_functions)
                (remapAddr (cloneAddrs mp) h.length
                  (mp.all_functions[i]))).CyclomaticComplexity
        } : FunctionRecord).new_unreached_complexity =
      nucOf (updateHitcounts f (deepcopyMerged h mp).1
          (deepcopyMerged h mp).2.all_functions)
        (deepcopyMerged h mp).2.all_functions
        (heapGet (updateHitcounts f (deepcopyMerged h mp).1
            (deepcopyMerged h mp).2.all_functions)
          (remapAddr (cloneAddrs mp) h.length (mp.all_functions[i]))) := rfl
  rw [hLHS]
  have hcc1 : HeapCCNonneg (deepcopyMerged h mp).1 := ccNonneg_deepcopy h mp hcc
  have hcell := deepcopy_cell h mp haclone
  have step1 :
      nucOf (updateHitcounts f (deepcopyMerged h mp).1
          (deepcopyMerged h mp).2.all_functions)
        (deepcopyMerged h mp).2.all_functions
        (heapGet (updateHitcounts f (deepcopyMerged h mp).1
            (deepcopyMerged h mp).2.all_functions)
          (remapAddr (cloneAddrs mp) h.length (mp.all_functions[i]))) ≤
      nucOf (deepcopyMerged h mp).1 (deepcopyMerged h mp).2.all_functions
        (heapGet (deepcopyMerged h mp).1
          (remapAddr (cloneAddrs mp) h.length (mp.all_functions[i]))) := by
    apply nucOf_le
    · exact updateHitcounts_baseOf f _ _ _
    · exact updateHitcounts_zero f _ _ _
    · exact updateHitcounts_baseEq f _ _
    · intro b
      exact updateHitcounts_zero f _ _ b
    · intro b
      exact hcc1 b
    · exact hcc1 _
  have step2 :
      nucOf (deepcopyMerged h mp).1 (deepcopyMerged h mp).2.all_functions
        (heapGet (deepcopyMerged h mp).1
          (remapAddr (cloneAddrs mp) h.length (mp.all_functions[i]))) =
      nucOf h mp.all_functions (heapGet h (mp.all_functions[i])) := by
    rw [hcell]
    unfold nucOf
    have htn :
        totalNewComplexityOf (deepcopyMerged h mp).1
          (deepcopyMerged h mp).2.all_functions
          (copyRecord (cloneAddrs mp) h.length (heapGet h (mp.all_functions[i]))) =
        totalNewComplexityOf h mp.all_functions (heapGet h (mp.all_functions[i])) := by
      rw [totalNewComplexityOf_fdCongr _ _
        (show baseOf (copyRecord (cloneAddrs mp) h.length (heapGet h (mp.all_functions[i]))) =
          baseOf (heapGet h (mp.all_functions[i])) from rfl)]
      rw [deepcopy_def]
      unfold totalNewComplexityOf
      rw [List.foldl_map]
      apply foldl_congr_mem
      intro acc b hb
      have hbcell := deepcopy_cell h mp (mem_cloneAddrs_of_allF mp b hb)
      rw [deepcopy_def] at hbcell
      rw [hbcell]
      rfl
    rw [htn]
    rfl
  rw [step2] at step1
  calc _ ≤ nucOf h mp.all_functions (heapGet h (mp.all_functions[i])) := step1
    _ = (heapGet h (mp.all_functions[i])).new_unreached_complexity :=
      (hinv.2 _ hamem).symm

theorem applyClones_inv (ts : List FunctionRecord) :
    ∀ s : Heap × MergedProjectProfile, MergedInv s.1 s.2 → HeapCCNonneg s.1 →
      MergedInv (applyClones s ts).1 (applyClones s ts).2 ∧
        HeapCCNonneg (applyClones s ts).1 := by
  unfold applyClones
  induction ts with
  | nil => intro s h1 h2; exact ⟨h1, h2⟩
  | cons t T ih =>
    intro s h1 h2
    rw [List.foldl_cons]
    exact ih _ (add_func_inv s.1 s.2 t h1) (ccNonneg_add_func s.1 s.2 t h2)

theorem ccNonneg_init (h : Heap) (profiles : List FuzzerProfile)
    (hcc : HeapCCNonneg h) :
    HeapCCNonneg (MergedProjectProfile.init h profiles).1 :=
  ccNonneg_of_baseEq (fun b => init_baseOf h profiles b) hcc

/-- Sufficient, decidable condition for `HeapCCNonneg`: every record of the
list has nonnegative complexity (the default record beyond the end has
zero). -/
theorem heapCCNonneg_of_forall_mem (h : Heap)
    (hm : ∀ r ∈ h, 0 ≤ r.CyclomaticComplexity) : HeapCCNonneg h := by
  intro b
  unfold heapGet
  rw [List.getD_eq_getElem?_getD]
  rcases hg : h[b]? with _ | r
  · exact le_refl 0
  · rcases List.getElem?_eq_some.mp hg with ⟨hb, rfl⟩
    exact hm _ (List.getElem_mem hb)

theorem countP_congr_mem {α : Type} {l : List α} {p q : α → Bool}
    (hpq : ∀ a ∈ l, p a = q a) : l.countP p = l.countP q := by
  rw [List.countP_eq_length_filter, List.countP_eq_length_filter,
    List.filter_congr hpq]

theorem foldl_add_sum {α : Type} (L : List α) (g : α → Int) :
    ∀ init : Int, L.foldl (fun t x => t + g x) init = init + (L.map g).sum := by
  induction L with
  | nil => intro init; simp
  | cons x T ih =>
    intro init
    simp only [List.foldl_cons, List.map_cons, List.sum_cons]
    rw [ih]
    ring

/-!
## Concrete example data used by witnesses and counterexamples
-/


/-!
## The claims
-/


/-- C1: the calltree parser does not flush the final still buffered depth
group into the output.  On the input consisting of the Call tree marker, a
depth zero node A, a depth one node B and the terminator line, the parse
succeeds and returns only the A node: the depth change from A to B flushed
the sorted buffer holding A, but at end of input line 86 of the source adds
the sorted remainder to the temporary buffer itself instead of the output
list, so the final depth group holding B is dropped.  This contradicts the
claim (every node of the input is emitted; the final buffer is flushed at
end of input) and the comment at line 85 of the source, which announces
that the remaining nodes are added to the overall list. -/
theorem C1_calltree_drops_final_group :
    data_file_read_calltree
      ["Call tree".toList, "A".toList, "  B f.c linenumber=2".toList,
        calltreeTerminator] =
      some [{ function_name := ['A'], functionSourceFile := [], depth_x2 := 0,
              linenumber := 0 }] := by
  decide

/-- C2, counterexample: constructing a MergedProjectProfile from the empty
profile list does not fail; it returns exactly the default empty merged
profile (no functions, empty reached and unreached sets), because every
loop of the constructor runs zero times and the constructor contains no
emptiness check.  In the embedding the constructor is total; every place
the Python code could raise is modelled, and none is reached on the empty
list. -/
theorem C2_empty_merge_counterexample :
    (MergedProjectProfile.init [] []).2 =
      { profiles := []
        all_functions := []
        functions_reached := ∅
        unreached_functions := ∅ } := by
  rfl

/-- C2, amended: for every heap, merging the empty profile list succeeds,
leaves the heap alone, and returns the empty merged profile; both retained
function counters read zero. -/
theorem C2_empty_merge_amended (h : Heap) :
    MergedProjectProfile.init h [] =
      (h,
        { profiles := []
          all_functions := []
          functions_reached := ∅
          unreached_functions := ∅ }) ∧
    (MergedProjectProfile.init h []).2.get_total_reached_function_count
      (MergedProjectProfile.init h []).1 = 0 ∧
    (MergedProjectProfile.init h []).2.get_total_unreached_function_count
      (MergedProjectProfile.init h []).1 = 0 :=
  ⟨rfl, rfl, rfl⟩

/-- C3, counterexample: in the post-processing loader, a fuzzer profile
whose function table has no LLVMFuzzerTestOneInput record does not fail the
reached set resolution; `set_all_reached_functions` silently leaves the
reached set as the empty list, exactly the silent default the claim rules
out. -/
theorem C3_no_entrypoint_counterexample :
    ((FuzzerProfile.mk [] [] [0]).set_all_reached_functions
        [{ functionName := "foo".toList
           functionSourceFile := []
           CyclomaticComplexity := 1
           BBCount := 1
           functionsReached := ["bar".toList] }]).funcsReachedByFuzzer = [] := by
  decide

/-- C3, amended: the two implementations diverge.  In the post-processing
loader (whose accummulate_profile the claim names), a profile with no
record named LLVMFuzzerTestOneInput gets the empty list as its reached set,
silently.  In the datatypes module, the same situation (no exact entry key
and no key containing the entry marker TestOneInput) raises an exception
from FuzzerProfile._set_all_reached_functions, modelled as `none`. -/
theorem C3_no_entrypoint_amended :
    (∀ (h : Heap) (p : FuzzerProfile),
      (∀ a ∈ p.all_function_data,
        (heapGet h a).functionName ≠ "LLVMFuzzerTestOneInput".toList) →
      (p.set_all_reached_functions h).funcsReachedByFuzzer = []) ∧
    (∀ d : FuzzerProfileD,
      (∀ kv ∈ d.all_class_functions,
        kv.1 ≠ "LLVMFuzzerTestOneInput".toList ∧
          pyContains kv.1 ("TestOneInput".toList) = false) →
      d.set_all_reached_functions = none) := by
  constructor
  · intro h p hnone
    unfold FuzzerProfile.set_all_reached_functions
    have main : ∀ L : List Nat,
        (∀ a ∈ L, (heapGet h a).functionName ≠ "LLVMFuzzerTestOneInput".toList) →
        L.foldl
          (fun acc a =>
            if (heapGet h a).functionName = "LLVMFuzzerTestOneInput".toList then
              (heapGet h a).functionsReached
            else acc)
          [] = [] := by
      intro L
      induction L with
      | nil => intro _; rfl
      | cons x T ih =>
        intro hL
        rw [List.foldl_cons, if_neg (hL x (by simp))]
        exact ih (fun a ha => hL a (by simp [ha]))
    exact main p.all_function_data hnone
  · intro d hkv
    unfold FuzzerProfileD.set_all_reached_functions
    have h1 : d.all_class_functions.find?
        (fun kv => kv.1 = "LLVMFuzzerTestOneInput".toList) = none := by
      rw [List.find?_eq_none]
      intro kv hmem
      simpa using (hkv kv hmem).1
    have h2 : d.all_class_functions.find?
        (fun kv => pyContains kv.1 ("TestOneInput".toList)) = none := by
      rw [List.find?_eq_none]
      intro kv hmem
      simpa using (hkv kv hmem).2
    rw [h1, h2]

/-- C3, witness for the amended claim at concrete inputs: a loader profile
with a single record named foo, and a datatypes profile keyed by a name
containing neither the exact entry name nor the marker. -/
theorem C3_no_entrypoint_amended_witness :
    ((FuzzerProfile.mk [] [] [0]).set_all_reached_functions
        [{ functionName := "foo".toList
           functionSourceFile := []
           CyclomaticComplexity := 1
           BBCount := 1
           functionsReached := ["bar".toList] }]).funcsReachedByFuzzer = [] ∧
    (FuzzerProfileD.mk
        [("fuzz_entry".toList,
          FunctionProfileD.mk ("fuzz_entry".toList) [] 1 1)]
        [] [] 0 0).set_all_reached_functions = none :=
  ⟨C3_no_entrypoint_amended.1
      [{ functionName := "foo".toList
         functionSourceFile := []
         CyclomaticComplexity := 1
         BBCount := 1
         functionsReached := ["bar".toList] }]
      (FuzzerProfile.mk [] [] [0]) (by decide),
    C3_no_entrypoint_amended.2 _ (by decide)⟩

/-- C4, counterexample: one fuzzer whose entry point statically reaches the
name foo, for which no function record exists.  Then functions_reached has
cardinality one, but no retained record has nonzero hit count (the only
record, the entry point itself, is reached by no fuzzer), so the number of
retained functions with positive hit count differs from the cardinality of
functions_reached, and the claimed equality fails on the merge the code
computes. -/
theorem C4_reached_count_counterexample :
    (MergedProjectProfile.init exHeapGhost [exProfGhost]).2.get_total_reached_function_count
        (MergedProjectProfile.init exHeapGhost [exProfGhost]).1 = 0 ∧
      (MergedProjectProfile.init exHeapGhost [exProfGhost]).2.functions_reached.card = 1 := by
  constructor
  · decide
  · decide

/-- C4, amended: for every merge over a well formed store,
unconditionally, every retained record ends up with hit count equal to the
number of fuzzers whose reached set contains its name; the count equality
itself holds exactly under the consistency hypothesis the counterexample
violates, namely when every name in the merged reached set is carried by
some profile record that the sanitizer or llvm filter does not exclude, in
which case the number of retained functions with positive hit count equals
the cardinality of functions_reached. -/
theorem C4_reached_count_amended (h : Heap) (profiles : List FuzzerProfile)
    (hwf : ProfilesWF h profiles) :
    ((∀ n ∈ mergedFunctionsReached profiles,
      ∃ a ∈ profileAddrs profiles,
        ¬sanitizerOrLLVM ((heapGet h a).functionName) = true ∧
          (heapGet h a).functionName = n) →
      (MergedProjectProfile.init h profiles).2.get_total_reached_function_count
          (MergedProjectProfile.init h profiles).1 =
        (MergedProjectProfile.init h profiles).2.functions_reached.card) ∧
    ∀ a ∈ (MergedProjectProfile.init h profiles).2.all_functions,
      (heapGet (MergedProjectProfile.init h profiles).1 a).hitcount =
        hitcountOf profiles
          ((heapGet (MergedProjectProfile.init h profiles).1 a).functionName) := by
  have hname : ∀ b,
      (heapGet (MergedProjectProfile.init h profiles).1 b).functionName =
        (heapGet h b).functionName :=
    fun b => functionName_of_baseOf (init_baseOf h profiles b)
  have hhit : ∀ a ∈ (MergedProjectProfile.init h profiles).2.all_functions,
      (heapGet (MergedProjectProfile.init h profiles).1 a).hitcount =
        hitcountOf profiles ((heapGet h a).functionName) := by
    intro a ha
    exact init_hit h profiles hwf a (init_allF_sub h profiles a ha)
      (init_allF_noskip h profiles a ha)
  constructor
  · intro hcover
    unfold MergedProjectProfile.get_total_reached_function_count
    have hcong :
        (MergedProjectProfile.init h profiles).2.all_functions.countP
            (fun a => (heapGet (MergedProjectProfile.init h profiles).1 a).hitcount != 0) =
          (MergedProjectProfile.init h profiles).2.all_functions.countP
            (fun a =>
              decide ((heapGet h a).functionName ∈ mergedFunctionsReached profiles)) := by
      apply countP_congr_mem
      intro a ha
      apply Bool.eq_iff_iff.mpr
      rw [bne_iff_ne, decide_eq_true_iff, hhit a ha]
      exact hitcountOf_pos_iff profiles ((heapGet h a).functionName)
    rw [hcong]
    have hmapped :
        (MergedProjectProfile.init h profiles).2.all_functions.countP
            (fun a =>
              decide ((heapGet h a).functionName ∈ mergedFunctionsReached profiles)) =
          ((MergedProjectProfile.init h profiles).2.all_functions.map
              (fun b => (heapGet h b).functionName)).countP
            (fun n => decide (n ∈ mergedFunctionsReached profiles)) := by
      rw [List.countP_map]
      rfl
    rw [hmapped]
    have hcard := countP_mem_card
      ((MergedProjectProfile.init h profiles).2.all_functions.map
        (fun b => (heapGet h b).functionName))
      (mergedFunctionsReached profiles)
      (init_allF_namesNodup h profiles)
      (by
        intro n hn
        rcases hcover n hn with ⟨a, haL, hskip, hna⟩
        have := init_allF_cover h profiles a haL hskip
        rwa [hna] at this)
    rw [hcard]
    rfl
  · intro a ha
    rw [hname a]
    exact hhit a ha

theorem C4_reached_count_amended_witness :
    (ProfilesWF exHeapOk [exProfOk] ∧
      (∀ n ∈ mergedFunctionsReached [exProfOk],
        ∃ a ∈ profileAddrs [exProfOk],
          ¬sanitizerOrLLVM ((heapGet exHeapOk a).functionName) = true ∧
            (heapGet exHeapOk a).functionName = n) ∧
      ProfilesWF exHeapGhost [exProfGhost] ∧
      0 ∈ (MergedProjectProfile.init exHeapGhost [exProfGhost]).2.all_functions) ∧
    ((MergedProjectProfile.init exHeapOk [exProfOk]).2.get_total_reached_function_count
        (MergedProjectProfile.init exHeapOk [exProfOk]).1 =
      (MergedProjectProfile.init exHeapOk [exProfOk]).2.functions_reached.card) ∧
    (heapGet (MergedProjectProfile.init exHeapGhost [exProfGhost]).1 0).hitcount =
      hitcountOf [exProfGhost]
        ((heapGet (MergedProjectProfile.init exHeapGhost [exProfGhost]).1 0).functionName) :=
  ⟨⟨by decide, by decide, by decide, by decide⟩,
    (C4_reached_count_amended exHeapOk [exProfOk] (by decide)).1 (by decide),
    (C4_reached_count_amended exHeapGhost [exProfGhost] (by decide)).2 0 (by decide)⟩

/-- C5: for every merged profile built over a well formed store, the
`new_unreached_complexity` of each retained function equals the sum of the
cyclomatic complexities of the retained members of its `functionsReached`
list that currently have hit count zero, plus its own cyclomatic complexity
exactly when the function itself has hit count zero. -/
theorem C5_new_unreached_complexity (h : Heap) (profiles : List FuzzerProfile)
    (hwf : ProfilesWF h profiles) :
    ∀ a ∈ (MergedProjectProfile.init h profiles).2.all_functions,
      (heapGet (MergedProjectProfile.init h profiles).1 a).new_unreached_complexity =
        (((MergedProjectProfile.init h profiles).2.all_functions.filter
              (fun b =>
                (heapGet (MergedProjectProfile.init h profiles).1 a).functionsReached.contains
                    ((heapGet (MergedProjectProfile.init h profiles).1 b).functionName)
                  && (heapGet (MergedProjectProfile.init h profiles).1 b).hitcount == 0)).map
            (fun b =>
              (heapGet (MergedProjectProfile.init h profiles).1 b).CyclomaticComplexity)).sum +
          (if (heapGet (MergedProjectProfile.init h profiles).1 a).hitcount == 0 then
            (heapGet (MergedProjectProfile.init h profiles).1 a).CyclomaticComplexity
          else 0) := by
  intro a ha
  rw [init_nuc_final h profiles hwf a ha]
  unfold nucOf totalNewComplexityOf
  rw [foldl_if_sum, zero_add]
  by_cases hz :
      ((heapGet (MergedProjectProfile.init h profiles).1 a).hitcount == 0) = true
  · rw [if_pos hz, if_pos hz]
  · rw [if_neg hz, if_neg hz, add_zero]

/-- C5, witness: the two examples of the claim.  With foo of complexity
three reaching only bar of complexity five, both unhit, the merged profile
assigns foo the figure eight; when bar is reached by the fuzzer (hit count
one) the figure is three.  The last conjunct applies the theorem at the foo
record of the first scenario. -/
theorem C5_new_unreached_complexity_witness :
    (ProfilesWF exHeapFooBar [exProfFooBar] ∧
      1 ∈ (MergedProjectProfile.init exHeapFooBar [exProfFooBar]).2.all_functions) ∧
    (heapGet (MergedProjectProfile.init exHeapFooBar [exProfFooBar]).1
        1).new_unreached_complexity = 8 ∧
    (heapGet (MergedProjectProfile.init exHeapFooBarHit [exProfFooBarHit]).1
        1).new_unreached_complexity = 3 ∧
    (heapGet (MergedProjectProfile.init exHeapFooBar [exProfFooBar]).1
        1).new_unreached_complexity =
      (((MergedProjectProfile.init exHeapFooBar [exProfFooBar]).2.all_functions.filter
            (fun b =>
              (heapGet (MergedProjectProfile.init exHeapFooBar [exProfFooBar]).1
                  1).functionsReached.contains
                  ((heapGet (MergedProjectProfile.init exHeapFooBar [exProfFooBar]).1
                    b).functionName)
                && (heapGet (MergedProjectProfile.init exHeapFooBar [exProfFooBar]).1
                  b).hitcount == 0)).map
          (fun b =>
            (heapGet (MergedProjectProfile.init exHeapFooBar [exProfFooBar]).1
              b).CyclomaticComplexity)).sum +
        (if (heapGet (MergedProjectProfile.init exHeapFooBar [exProfFooBar]).1
            1).hitcount == 0 then
          (heapGet (MergedProjectProfile.init exHeapFooBar [exProfFooBar]).1
            1).CyclomaticComplexity
        else 0) :=
  ⟨⟨by decide, by decide⟩, by decide, by decide,
    C5_new_unreached_complexity exHeapFooBar [exProfFooBar] (by decide) 1 (by decide)⟩

/-- C6: the clone operation shares no mutable state with the original and
does not alter it.  For every heap, merged profile and target record: every
cell of the original heap is unchanged by the call (the deep copy only
appends fresh cells, and both update loops write only clone cells); and
every record address reachable from the returned clone, both through its
profiles and through all_functions, lies at or beyond the end of the
original heap, so no later write through the clone can touch a cell the
original profile refers to. -/
theorem C6_clone_independence (h : Heap) (mp : MergedProjectProfile)
    (f : FunctionRecord) :
    (∀ b, b < h.length →
      heapGet (add_func_to_reached_and_clone h mp f).1 b = heapGet h b) ∧
    (∀ x ∈ (add_func_to_reached_and_clone h mp f).2.all_functions, h.length ≤ x) ∧
    (∀ p ∈ (add_func_to_reached_and_clone h mp f).2.profiles,
      ∀ x ∈ p.all_function_data, h.length ≤ x) ∧
    h.length ≤ (add_func_to_reached_and_clone h mp f).1.length := by
  refine ⟨?_, ?_, ?_, ?_⟩
  · intro b hb
    exact add_func_frame h mp f hb
  · intro x hx
    rw [add_func_def] at hx
    exact (clone_addrs_fresh h mp).1 x hx
  · intro p hp x hx
    rw [add_func_def] at hp
    exact (clone_addrs_fresh h mp).2 p hp x hx
  · rw [add_func_heap_length]
    exact Nat.le_add_right _ _

/-- C6, witness: the merged consistent single fuzzer project; cloning with
the foo record as target leaves cell zero of the original heap unchanged,
and the clone addresses two and three lie beyond the two cell original
heap. -/
theorem C6_clone_independence_witness :
    heapGet
        (add_func_to_reached_and_clone (MergedProjectProfile.init exHeapOk [exProfOk]).1
          (MergedProjectProfile.init exHeapOk [exProfOk]).2
          (heapGet (MergedProjectProfile.init exHeapOk [exProfOk]).1 1)).1 0 =
      heapGet (MergedProjectProfile.init exHeapOk [exProfOk]).1 0 ∧
    (2 ∈ (add_func_to_reached_and_clone (MergedProjectProfile.init exHeapOk [exProfOk]).1
        (MergedProjectProfile.init exHeapOk [exProfOk]).2
        (heapGet (MergedProjectProfile.init exHeapOk [exProfOk]).1 1)).2.all_functions) ∧
    (MergedProjectProfile.init exHeapOk [exProfOk]).1.length ≤ 2 :=
  ⟨(C6_clone_independence (MergedProjectProfile.init exHeapOk [exProfOk]).1
      (MergedProjectProfile.init exHeapOk [exProfOk]).2
      (heapGet (MergedProjectProfile.init exHeapOk [exProfOk]).1 1)).1 0 (by decide),
    by decide,
    (C6_clone_independence (MergedProjectProfile.init exHeapOk [exProfOk]).1
      (MergedProjectProfile.init exHeapOk [exProfOk]).2
      (heapGet (MergedProjectProfile.init exHeapOk [exProfOk]).1 1)).2.1 2 (by decide)⟩

/-- The reached set step leaves the function table unchanged. -/
theorem set_all_reached_functions_acf {d d1 : FuzzerProfileD}
    (hs : d.set_all_reached_functions = some d1) :
    d1.all_class_functions = d.all_class_functions := by
  unfold FuzzerProfileD.set_all_reached_functions at hs
  rcases hfind : d.all_class_functions.find?
      (fun kv => kv.1 = "LLVMFuzzerTestOneInput".toList) with _ | kv
  · rw [hfind] at hs
    rcases hfind2 : d.all_class_functions.find?
        (fun kv => pyContains kv.1 ("TestOneInput".toList)) with _ | kv2
    · rw [hfind2] at hs
      cases hs
    · rw [hfind2] at hs
      rw [← Option.some.inj hs]
  · rw [hfind] at hs
    rw [← Option.some.inj hs]

/-- C7, counterexample: a fuzzer whose entry point reaches a name with no
record.  After the reached and unreached steps, the union of the two sets
is the two names ghost and the entry name, while the key set of the
function table is the entry name alone, so the two sets do not partition
the key set. -/
theorem C7_partition_counterexample :
    exProfDGhost.set_all_reached_functions = some exProfDGhostReached ∧
    ¬((exProfDGhostReached.set_all_unreached_functions).functions_reached_by_fuzzer.toFinset ∪
        (exProfDGhostReached.set_all_unreached_functions).functions_unreached_by_fuzzer.toFinset =
      (exProfDGhostReached.set_all_unreached_functions).classFunctionKeys.toFinset) := by
  constructor
  · decide
  · decide

/-- C7, amended: after the reached and unreached steps of any datatypes
profile (given only the structural fact, true by construction of the
table, that every record is keyed by its own function name), the two sets
are always disjoint, their union always contains every key of the
function table, and the union always equals the key set joined with the
reached set.  Hence the union equals the key set exactly when every
reached name is itself a key, and it is a strict superset of the key set
whenever some reached name, like the ghost name of the counterexample, is
not a key. -/
theorem C7_partition_amended (d d1 : FuzzerProfileD)
    (hset : d.set_all_reached_functions = some d1)
    (hkeys : ∀ kv ∈ d.all_class_functions, kv.2.function_name = kv.1) :
    (∀ n ∈ (d1.set_all_unreached_functions).functions_unreached_by_fuzzer,
      n ∉ (d1.set_all_unreached_functions).functions_reached_by_fuzzer) ∧
    (d1.set_all_unreached_functions).classFunctionKeys.toFinset ⊆
      ((d1.set_all_unreached_functions).functions_reached_by_fuzzer.toFinset ∪
        (d1.set_all_unreached_functions).functions_unreached_by_fuzzer.toFinset) ∧
    ((d1.set_all_unreached_functions).functions_reached_by_fuzzer.toFinset ∪
        (d1.set_all_unreached_functions).functions_unreached_by_fuzzer.toFinset) =
      ((d1.set_all_unreached_functions).classFunctionKeys.toFinset ∪
        (d1.set_all_unreached_functions).functions_reached_by_fuzzer.toFinset) ∧
    ((∀ n ∈ d1.functions_reached_by_fuzzer, n ∈ d1.classFunctionKeys) →
      ((d1.set_all_unreached_functions).functions_reached_by_fuzzer.toFinset ∪
          (d1.set_all_unreached_functions).functions_unreached_by_fuzzer.toFinset) =
        (d1.set_all_unreached_functions).classFunctionKeys.toFinset) ∧
    ((∃ n ∈ d1.functions_reached_by_fuzzer, n ∉ d1.classFunctionKeys) →
      (d1.set_all_unreached_functions).classFunctionKeys.toFinset ⊂
        ((d1.set_all_unreached_functions).functions_reached_by_fuzzer.toFinset ∪
          (d1.set_all_unreached_functions).functions_unreached_by_fuzzer.toFinset)) := by
  have hacf : d1.all_class_functions = d.all_class_functions :=
    set_all_reached_functions_acf hset
  have hkeys1 : ∀ kv ∈ d1.all_class_functions, kv.2.function_name = kv.1 := by
    rw [hacf]
    exact hkeys
  have hnames : d1.all_class_functions.map (fun kv => kv.2.function_name) =
      d1.classFunctionKeys := by
    unfold FuzzerProfileD.classFunctionKeys
    exact List.map_congr_left hkeys1
  have hcover : (d1.set_all_unreached_functions).classFunctionKeys.toFinset ⊆
      ((d1.set_all_unreached_functions).functions_reached_by_fuzzer.toFinset ∪
        (d1.set_all_unreached_functions).functions_unreached_by_fuzzer.toFinset) := by
    intro n hkF
    have hk : n ∈ (d1.set_all_unreached_functions).classFunctionKeys :=
      List.mem_toFinset.mp hkF
    rw [Finset.mem_union]
    by_cases hr : n ∈ d1.functions_reached_by_fuzzer
    · exact Or.inl (List.mem_toFinset.mpr hr)
    · refine Or.inr (List.mem_toFinset.mpr ?_)
      unfold FuzzerProfileD.set_all_unreached_functions
      apply List.mem_filter.mpr
      refine ⟨by rw [hnames]; exact hk, ?_⟩
      have : d1.functions_reached_by_fuzzer.contains n = false := by
        rcases hcontains : d1.functions_reached_by_fuzzer.contains n with _ | _
        · rfl
        · exact absurd (List.elem_iff.mp hcontains) hr
      rw [this]
      rfl
  have hunion :
      ((d1.set_all_unreached_functions).functions_reached_by_fuzzer.toFinset ∪
          (d1.set_all_unreached_functions).functions_unreached_by_fuzzer.toFinset) =
        ((d1.set_all_unreached_functions).classFunctionKeys.toFinset ∪
          (d1.set_all_unreached_functions).functions_reached_by_fuzzer.toFinset) := by
    apply Finset.ext
    intro n
    simp only [Finset.mem_union, List.mem_toFinset]
    constructor
    · rintro (hr | hu)
      · exact Or.inr hr
      · unfold FuzzerProfileD.set_all_unreached_functions at hu
        rcases List.mem_filter.mp hu with ⟨hmap, _⟩
        rw [hnames] at hmap
        exact Or.inl hmap
    · rintro (hk | hr)
      · have := hcover (List.mem_toFinset.mpr hk)
        rw [Finset.mem_union] at this
        rcases this with hr1 | hu1
        · exact Or.inl (List.mem_toFinset.mp hr1)
        · exact Or.inr (List.mem_toFinset.mp hu1)
      · exact Or.inl hr
  refine ⟨?_, hcover, hunion, ?_, ?_⟩
  · intro n hn hmem
    unfold FuzzerProfileD.set_all_unreached_functions at hn
    rcases List.mem_filter.mp hn with ⟨_, hcond⟩
    have : d1.functions_reached_by_fuzzer.contains n = true :=
      List.elem_iff.mpr hmem
    rw [this] at hcond
    cases hcond
  · intro hrk
    rw [hunion]
    apply Finset.union_eq_left.mpr
    intro n hnF
    exact List.mem_toFinset.mpr (hrk n (List.mem_toFinset.mp hnF))
  · rintro ⟨n, hn, hnk⟩
    rw [Finset.ssubset_iff_subset_ne]
    refine ⟨hcover, ?_⟩
    intro heq
    have hmemU : n ∈
        ((d1.set_all_unreached_functions).functions_reached_by_fuzzer.toFinset ∪
          (d1.set_all_unreached_functions).functions_unreached_by_fuzzer.toFinset) :=
      Finset.mem_union.mpr (Or.inl (List.mem_toFinset.mpr hn))
    rw [← heq] at hmemU
    exact hnk (List.mem_toFinset.mp hmemU)

/-- C7, witness for the amended claim: on the consistent datatypes profile
the reached set step resolves the entry point, every record is keyed by
its own name, every reached name is a key, and the union equals the key
set; on the inconsistent profile of the counterexample the reached name
ghost has no record and the union is a strict superset of the key set. -/
theorem C7_partition_amended_witness :
    (exProfDOk.set_all_reached_functions = some exProfDOkReached ∧
      (∀ kv ∈ exProfDOk.all_class_functions, kv.2.function_name = kv.1) ∧
      (∀ n ∈ exProfDOkReached.functions_reached_by_fuzzer,
        n ∈ exProfDOkReached.classFunctionKeys) ∧
      exProfDGhost.set_all_reached_functions = some exProfDGhostReached ∧
      (∀ kv ∈ exProfDGhost.all_class_functions, kv.2.function_name = kv.1) ∧
      (∃ n ∈ exProfDGhostReached.functions_reached_by_fuzzer,
        n ∉ exProfDGhostReached.classFunctionKeys)) ∧
    (((exProfDOkReached.set_all_unreached_functions).functions_reached_by_fuzzer.toFinset ∪
        (exProfDOkReached.set_all_unreached_functions).functions_unreached_by_fuzzer.toFinset) =
      (exProfDOkReached.set_all_unreached_functions).classFunctionKeys.toFinset) ∧
    (exProfDGhostReached.set_all_unreached_functions).classFunctionKeys.toFinset ⊂
      ((exProfDGhostReached.set_all_unreached_functions).functions_reached_by_fuzzer.toFinset ∪
        (exProfDGhostReached.set_all_unreached_functions).functions_unreached_by_fuzzer.toFinset) :=
  ⟨⟨by decide, by decide, by decide, by decide, by decide, by decide⟩,
    (C7_partition_amended exProfDOk exProfDOkReached (by decide)
      (by decide)).2.2.2.1 (by decide),
    (C7_partition_amended exProfDGhost exProfDGhostReached (by decide)
      (by decide)).2.2.2.2 (by decide)⟩

/-- Variant of `foldl_if_sum` for a conditional written with a decidable
proposition. -/
theorem foldl_ite_sum {α : Type} (L : List α) (P : α → Prop) [DecidablePred P]
    (f : α → Int) :
    ∀ init : Int,
      L.foldl (fun acc b => if P b then acc + f b else acc) init =
        init + ((L.filter (fun b => decide (P b))).map f).sum := by
  induction L with
  | nil => intro init; simp
  | cons x T ih =>
    intro init
    simp only [List.foldl_cons, List.filter_cons]
    by_cases hx : P x
    · simp only [hx, if_true, decide_True, if_pos trivial, List.map_cons, List.sum_cons]
      rw [ih]
      ring
    · simp only [hx, if_false, decide_False, Bool.false_eq_true]
      exact ih init

/-- C8, counterexample: in the datatypes module the totals computation does
raise on an inconsistent profile.  The entry point reaches the name ghost,
which has no record; `_set_total_basic_blocks` subscripts the function
table with the missing key and the KeyError escapes (modelled as `none`),
contradicting the claim that a reached name with no matching record is
always skipped silently. -/
theorem C8_totals_counterexample :
    exProfDGhost.set_all_reached_functions = some exProfDGhostReached ∧
    exProfDGhostReached.set_total_basic_blocks = none := by
  constructor
  · decide
  · decide

/-- C8, amended: the two implementations diverge.  In the post-processing
loader (the cited get_total_basic_blocks), the totals equal the sum over
the reached names of the bb count, respectively cyclomatic complexity, of
every record carrying that name, so a reached name with no record
contributes nothing and the computation is total.  In the datatypes module,
the computation raises a lookup error as soon as some reached name is not a
key of the function table. -/
theorem C8_totals_amended :
    (∀ (h : Heap) (p : FuzzerProfile),
      p.get_total_basic_blocks h =
        (p.funcsReachedByFuzzer.map
          (fun func =>
            ((p.all_function_data.filter
                (fun a => (heapGet h a).functionName = func)).map
              (fun a => (heapGet h a).BBCount)).sum)).sum ∧
      p.get_total_cyclomatic_complexity h =
        (p.funcsReachedByFuzzer.map
          (fun func =>
            ((p.all_function_data.filter
                (fun a => (heapGet h a).functionName = func)).map
              (fun a => (heapGet h a).CyclomaticComplexity)).sum)).sum) ∧
    (∀ d : FuzzerProfileD,
      (∃ func ∈ d.functions_reached_by_fuzzer,
        ∀ kv ∈ d.all_class_functions, kv.1 ≠ func) →
      d.set_total_basic_blocks = none) := by
  constructor
  · intro h p
    constructor
    · unfold FuzzerProfile.get_total_basic_blocks
      have h1 : p.funcsReachedByFuzzer.foldl
          (fun total func =>
            p.all_function_data.foldl
              (fun total a =>
                if (heapGet h a).functionName = func then total + (heapGet h a).BBCount
                else total)
              total)
          0 =
        p.funcsReachedByFuzzer.foldl
          (fun total func =>
            total +
              ((p.all_function_data.filter
                  (fun a => (heapGet h a).functionName = func)).map
                (fun a => (heapGet h a).BBCount)).sum)
          0 := by
        apply foldl_congr_mem
        intro acc func _
        exact foldl_ite_sum p.all_function_data
          (fun a => (heapGet h a).functionName = func)
          (fun a => (heapGet h a).BBCount) acc
      rw [h1, foldl_add_sum, zero_add]
    · unfold FuzzerProfile.get_total_cyclomatic_complexity
      have h1 : p.funcsReachedByFuzzer.foldl
          (fun total func =>
            p.all_function_data.foldl
              (fun total a =>
                if (heapGet h a).functionName = func then
                  total + (heapGet h a).CyclomaticComplexity
                else total)
              total)
          0 =
        p.funcsReachedByFuzzer.foldl
          (fun total func =>
            total +
              ((p.all_function_data.filter
                  (fun a => (heapGet h a).functionName = func)).map
                (fun a => (heapGet h a).CyclomaticComplexity)).sum)
          0 := by
        apply foldl_congr_mem
        intro acc func _
        exact foldl_ite_sum p.all_function_data
          (fun a => (heapGet h a).functionName = func)
          (fun a => (heapGet h a).CyclomaticComplexity) acc
      rw [h1, foldl_add_sum, zero_add]
  · intro d hex
    unfold FuzzerProfileD.set_total_basic_blocks
    have main : ∀ (l : List PyStr) (total : Int),
        (∃ func ∈ l, ∀ kv ∈ d.all_class_functions, kv.1 ≠ func) →
        l.foldlM
          (fun (total : Int) func =>
            match d.all_class_functions.find? (fun kv => kv.1 = func) with
            | some kv => some (total + kv.2.bb_count)
            | none => none)
          total = none := by
      intro l
      induction l with
      | nil =>
        intro total hex2
        rcases hex2 with ⟨func, hmem, _⟩
        cases hmem
      | cons x T ih =>
        intro total hex2
        rw [List.foldlM_cons]
        rcases hfind : d.all_class_functions.find? (fun kv => kv.1 = x) with _ | kv
        · rw [hfind]
          rfl
        · rw [hfind]
          rcases hex2 with ⟨func, hmem, hnone⟩
          have hfx : func ≠ x := by
            intro hcontra
            subst hcontra
            have := List.find?_some hfind
            rcases List.mem_of_find?_eq_some hfind with hkvmem
            exact hnone kv hkvmem (by simpa using this)
          rcases List.mem_cons.mp hmem with hfx2 | hmemT
          · exact absurd hfx2 hfx
          · exact ih _ ⟨func, hmemT, hnone⟩
    rw [main d.functions_reached_by_fuzzer 0 hex]
    rfl

/-- C8, witness for the amended claim: the loader totals of the ghost
reaching profile skip the missing record (both totals are zero, no error),
while the datatypes computation on the corresponding profile state raises. -/
theorem C8_totals_amended_witness :
    (exProfGhost.get_total_basic_blocks exHeapGhost =
        (exProfGhost.funcsReachedByFuzzer.map
          (fun func =>
            ((exProfGhost.all_function_data.filter
                (fun a => (heapGet exHeapGhost a).functionName = func)).map
              (fun a => (heapGet exHeapGhost a).BBCount)).sum)).sum) ∧
    exProfGhost.get_total_basic_blocks exHeapGhost = 0 ∧
    (∃ func ∈ exProfDGhostReached.functions_reached_by_fuzzer,
      ∀ kv ∈ exProfDGhostReached.all_class_functions, kv.1 ≠ func) ∧
    exProfDGhostReached.set_total_basic_blocks = none :=
  ⟨(C8_totals_amended.1 exHeapGhost exProfGhost).1, by decide, by decide,
    C8_totals_amended.2 exProfDGhostReached (by decide)⟩

/-- C9: starting from a merged profile over a well formed store with
nonnegative complexities, and after any sequence of clone applications, one
more application of `add_func_to_reached_and_clone` leaves every retained
function (matched position by position between the clone and the profile it
was made from) with a `new_unreached_complexity` no larger than before:
the update loops only move hit counts away from zero, so the set of unhit
records shrinks and the recomputed sums cannot grow. -/
theorem C9_nuc_monotone (h : Heap) (profiles : List FuzzerProfile)
    (ts : List FunctionRecord) (t : FunctionRecord)
    (hwf : ProfilesWF h profiles) (hcc : HeapCCNonneg h) :
    ∀ i < (applyClones (MergedProjectProfile.init h profiles) ts).2.all_functions.length,
      (heapGet
          (add_func_to_reached_and_clone
            (applyClones (MergedProjectProfile.init h profiles) ts).1
            (applyClones (MergedProjectProfile.init h profiles) ts).2 t).1
          ((add_func_to_reached_and_clone
              (applyClones (MergedProjectProfile.init h profiles) ts).1
              (applyClones (MergedProjectProfile.init h profiles) ts).2
              t).2.all_functions.getD i 0)).new_unreached_complexity ≤
        (heapGet (applyClones (MergedProjectProfile.init h profiles) ts).1
          ((applyClones (MergedProjectProfile.init h profiles)
              ts).2.all_functions.getD i 0)).new_unreached_complexity := by
  intro i hi
  have hic := applyClones_inv ts (MergedProjectProfile.init h profiles)
    (init_inv h profiles hwf) (ccNonneg_init h profiles hcc)
  exact add_func_mono _ _ t hic.1 hic.2 i hi

/-- C9, witness: the foo and bar project, empty clone prefix, cloning with
the foo record as target; the figure at position zero does not increase. -/
theorem C9_nuc_monotone_witness :
    ProfilesWF exHeapFooBar [exProfFooBar] ∧
    0 < (applyClones (MergedProjectProfile.init exHeapFooBar [exProfFooBar])
      []).2.all_functions.length ∧
    (heapGet
        (add_func_to_reached_and_clone
          (applyClones (MergedProjectProfile.init exHeapFooBar [exProfFooBar]) []).1
          (applyClones (MergedProjectProfile.init exHeapFooBar [exProfFooBar]) []).2
          (heapGet exHeapFooBar 1)).1
        ((add_func_to_reached_and_clone
            (applyClones (MergedProjectProfile.init exHeapFooBar [exProfFooBar]) []).1
            (applyClones (MergedProjectProfile.init exHeapFooBar [exProfFooBar]) []).2
            (heapGet exHeapFooBar 1)).2.all_functions.getD 0 0)).new_unreached_complexity ≤
      (heapGet (applyClones (MergedProjectProfile.init exHeapFooBar [exProfFooBar]) []).1
        ((applyClones (MergedProjectProfile.init exHeapFooBar [exProfFooBar])
            []).2.all_functions.getD 0 0)).new_unreached_complexity :=
  ⟨by decide, by decide,
    C9_nuc_monotone exHeapFooBar [exProfFooBar] [] (heapGet exHeapFooBar 1)
      (by decide) (heapCCNonneg_of_forall_mem exHeapFooBar (by decide)) 0 (by decide)⟩

/-- C10: the merge mutates the function records of the input profiles in
place.  The retained list `all_functions` holds exactly addresses of the
record dictionaries of the profiles (aliasing, first conjunct); the merge
writes the hit count into every non excluded profile record, retained or
duplicate (second conjunct); it writes the incoming reference list and the
two complexity figures into every retained record (third conjunct); and on
a concrete consistent project the record data of the input profile really
differs after the merge (fourth conjunct), so the inputs are not left
unchanged. -/
theorem C10_merge_mutates_inputs (h : Heap) (profiles : List FuzzerProfile)
    (hwf : ProfilesWF h profiles) :
    (∀ a ∈ (MergedProjectProfile.init h profiles).2.all_functions,
      a ∈ profileAddrs profiles) ∧
    (∀ a ∈ profileAddrs profiles,
      ¬sanitizerOrLLVM ((heapGet h a).functionName) = true →
        (heapGet (MergedProjectProfile.init h profiles).1 a).hitcount =
          hitcountOf profiles ((heapGet h a).functionName)) ∧
    (∀ a ∈ (MergedProjectProfile.init h profiles).2.all_functions,
      (heapGet (MergedProjectProfile.init h profiles).1 a).incoming_references =
          incomingOf (MergedProjectProfile.init h profiles).1
            (MergedProjectProfile.init h profiles).2.all_functions
            (heapGet (MergedProjectProfile.init h profiles).1 a) ∧
        (heapGet (MergedProjectProfile.init h profiles).1 a).new_unreached_complexity =
          nucOf (MergedProjectProfile.init h profiles).1
            (MergedProjectProfile.init h profiles).2.all_functions
            (heapGet (MergedProjectProfile.init h profiles).1 a) ∧
        (heapGet (MergedProjectProfile.init h profiles).1 a).total_cyclomatic_complexity =
          totalCyclomaticOf (MergedProjectProfile.init h profiles).1
              (MergedProjectProfile.init h profiles).2.all_functions
              (heapGet (MergedProjectProfile.init h profiles).1 a) +
            (heapGet (MergedProjectProfile.init h profiles).1 a).CyclomaticComplexity) ∧
    heapGet (MergedProjectProfile.init exHeapOk [exProfOk]).1 1 ≠ heapGet exHeapOk 1 := by
  refine ⟨init_allF_sub h profiles, init_hit h profiles hwf, ?_, by decide⟩
  intro a ha
  exact ⟨init_incoming_final h profiles hwf a ha,
    init_nuc_final h profiles hwf a ha,
    init_tcc_final h profiles hwf a ha⟩

/-- C10, witness: the consistent single fuzzer project; the foo record
(address one) is a retained alias of the profile record, and after the
merge it carries hit count one (one fuzzer reaches foo). -/
theorem C10_merge_mutates_inputs_witness :
    ProfilesWF exHeapOk [exProfOk] ∧
    (1 ∈ (MergedProjectProfile.init exHeapOk [exProfOk]).2.all_functions) ∧
    (1 ∈ profileAddrs [exProfOk]) ∧
    (heapGet (MergedProjectProfile.init exHeapOk [exProfOk]).1 1).hitcount =
      hitcountOf [exProfOk] ((heapGet exHeapOk 1).functionName) :=
  ⟨by decide, by decide,
    (C10_merge_mutates_inputs exHeapOk [exProfOk] (by decide)).1 1 (by decide),
    (C10_merge_mutates_inputs exHeapOk [exProfOk] (by decide)).2.1 1 (by decide)
      (by decide)⟩
